import Mathlib

/-!
# Verification of `dsa_intro.cpp`

A shallow embedding of the sorting, searching and linked-list code of
`intro to c++/beginner/dsa_intro.cpp`.

* A `vector<int>` is a `List Int`; the C++ `int` is a mathematical integer that
  must stay inside `[INT_MIN, INT_MAX]`: every `int` operation of the source goes
  through `checkInt`, which faults with `Fault.overflow` when the exact result
  leaves that range (signed overflow is undefined behaviour in C++).
* Every `arr[k]` goes through `readAt` / `writeAt`, which fault with
  `Fault.outOfBounds` outside `0 ≤ k < arr.size()`.
* Loops are recursive functions on a fuel counter; running out of fuel is the
  fault `Fault.outOfFuel`.  The theorems show that a fuel above the array length
  always suffices, so this fault never arises.
-/

namespace DsaIntro

/-! ## Machine model -/

/-- The ways an execution can leave defined behaviour (or exhaust its fuel). -/
inductive Fault where
  | overflow
  | outOfBounds
  | outOfFuel
  | nullDeref
  | useAfterFree
  | doubleFree
  deriving DecidableEq, Repr

/-- Executions either fault or return a value. -/
abbrev Exec (α : Type) := Except Fault α

deriving instance DecidableEq for Except

/-- Smallest value of a 32-bit `int`. -/
def INT_MIN : Int := -2147483648

/-- Largest value of a 32-bit `int`. -/
def INT_MAX : Int := 2147483647

/-- Modulus of the 64-bit `size_t`. -/
def SIZE_MOD : Nat := 18446744073709551616

/-- The result of a signed `int` operation: the exact value when it is
representable, a fault otherwise. -/
def checkInt (x : Int) : Exec Int :=
  if INT_MIN ≤ x ∧ x ≤ INT_MAX then .ok x else .error .overflow

/-- Conversion of an unsigned `size_t` value to `int` (modular narrowing). -/
def sizeToInt (s : Nat) : Int :=
  ((s : Int) + 2147483648) % 4294967296 - 2147483648

/-- Conversion of an `int` to `size_t`, as done by the usual arithmetic
conversions in `i < arr.size()`. -/
def intToSize (i : Int) : Nat :=
  (i % (SIZE_MOD : Int)).toNat

/-- The element stored at position `k` of the array (`0` outside the array; the
checked accessors below never look there). -/
def nth (arr : List Int) (k : Nat) : Int :=
  arr.getD k 0

/-- Read of `arr[i]`: defined only for `0 ≤ i < arr.size()`. -/
def readAt (arr : List Int) (i : Int) : Exec Int :=
  if 0 ≤ i ∧ i < arr.length then .ok (nth arr i.toNat) else .error .outOfBounds

/-- Write `arr[i] = v`: defined only for `0 ≤ i < arr.size()`. -/
def writeAt (arr : List Int) (i : Int) (v : Int) : Exec (List Int) :=
  if 0 ≤ i ∧ i < arr.length then .ok (arr.set i.toNat v) else .error .outOfBounds

/-- The call `swap(arr[i], arr[j])` of `std::swap` on two array slots. -/
def swapAt (arr : List Int) (i j : Int) : Exec (List Int) := do
  let a ← readAt arr i
  let b ← readAt arr j
  let arr1 ← writeAt arr i b
  writeAt arr1 j a

/-! ## Linked list (source lines 52-88) -/

/-- Embedding of `struct Node { int data; Node* next; }`: a pointer is the address
of a heap cell, `none` is `nullptr`. -/
structure Node where
  data : Int
  next : Option Nat
  deriving DecidableEq, Repr

/-- The free store with allocation tracking: cell `a` holds the node at address
`a`, or `none` once that node has been deleted; `allocs` counts the executed `new`
and `frees` the executed `delete` of a node. -/
structure Heap where
  cells : List (Option Node)
  allocs : Nat
  frees : Nat
  deriving DecidableEq, Repr

/-- The content of the cell at address `a`: `none` for a deleted node and for an
address that was never allocated. -/
def cellAt (cells : List (Option Node)) (a : Nat) : Option Node :=
  cells.getD a none

/-- The free store before any allocation. -/
def emptyHeap : Heap := ⟨[], 0, 0⟩

/-- The addresses of the nodes that are allocated and not yet deleted. -/
def liveNodes (h : Heap) : List Nat :=
  (List.range h.cells.length).filter (fun a => (cellAt h.cells a).isSome)

/-- The expression `new Node(val)` with the constructor
`Node(int val) : data(val), next(nullptr)`: a fresh cell, whose address is returned. -/
def newNode (h : Heap) (val : Int) : Heap × Nat :=
  (⟨h.cells ++ [some ⟨val, none⟩], h.allocs + 1, h.frees⟩, h.cells.length)

/-- Access to the node behind `p` in `p->data` or `p->next`: `p` must be non-null
and point to a node that has not been deleted. -/
def deref (h : Heap) (p : Option Nat) : Exec Node :=
  match p with
  | none => .error .nullDeref
  | some a =>
    match cellAt h.cells a with
    | some nd => .ok nd
    | none => .error .useAfterFree

/-- The assignment `p->next = q`. -/
def setNext (h : Heap) (p q : Option Nat) : Exec Heap :=
  match p with
  | none => .error .nullDeref
  | some a =>
    match cellAt h.cells a with
    | some nd => .ok ⟨h.cells.set a (some ⟨nd.data, q⟩), h.allocs, h.frees⟩
    | none => .error .useAfterFree

/-- The statement `delete p`: a no-op on `nullptr`, a fault on a node that is not
live (double free), otherwise the cell is released. -/
def deleteNode (h : Heap) (p : Option Nat) : Exec Heap :=
  match p with
  | none => .ok h
  | some a =>
    match cellAt h.cells a with
    | some _ => .ok ⟨h.cells.set a none, h.allocs, h.frees + 1⟩
    | none => .error .doubleFree

/-- The traversal loop `while(current != nullptr) { cout << current->data;
current = current->next; }` (lines 68-72); the state is the printed values and the
heap, which the loop body only reads. -/
def traverse : Nat → Option Nat → List Int × Heap → Exec (List Int × Heap)
  | 0, _, _ => .error .outOfFuel
  | fuel + 1, current, (out, h) =>
    match current with
    | none => pure (out, h)
    | some a => do
      let nd ← deref h (some a)
      let nd' ← deref h (some a)
      traverse fuel nd'.next (out ++ [nd.data], h)

/-- The construction phase of `demonstrateLinkedList` (lines 62-64). -/
def demoConstruct (h : Heap) : Exec (Heap × Option Nat) := do
  let (h1, a1) := newNode h 1
  let head := some a1
  let (h2, a2) := newNode h1 2
  let h3 ← setNext h2 head (some a2)
  let (h4, a3) := newNode h3 3
  let nd ← deref h4 head
  let h5 ← setNext h4 nd.next (some a3)
  pure (h5, head)

/-- The release phase of `demonstrateLinkedList` (lines 85-87):
`delete head->next->next; delete head->next; delete head;`. -/
def demoRelease (h : Heap) (head : Option Nat) : Exec Heap := do
  let n1 ← deref h head
  let n2 ← deref h n1.next
  let h1 ← deleteNode h n2.next
  let m1 ← deref h1 head
  let h2 ← deleteNode h1 m1.next
  deleteNode h2 head

/-- Embedding of the linked-list part of `void demonstrateLinkedList()`: returns
the values printed by the traversal and the heap at return.  (The `std::list`
block of lines 75-82 touches none of the nodes and is left out.) -/
def demonstrateLinkedList (fuel : Nat) (h : Heap) : Exec (List Int × Heap) := do
  let (h1, head) ← demoConstruct h
  let (out, h2) ← traverse fuel head ([], h1)
  let h3 ← demoRelease h2 head
  pure (out, h3)

/-- Modelled from the spec: the linking step of `Construct(v1..vn)` (section 4.1),
which the source only performs for the values 2 and 3: hook the nodes for the values
`vs` one after the other behind the node `last`, each by `last->next = new Node(v)`. -/
def appendNodes : List Int → Heap → Nat → Exec Heap
  | [], h, _ => pure h
  | v :: vs, h, last => do
    let (h1, a) := newNode h v
    let h2 ← setNext h1 (some last) (some a)
    appendNodes vs h2 a

/-- Modelled from the spec: the general `Construct(v1..vn)` of section 4.1, of
which the source only has the instance for the values 1, 2, 3 (`demoConstruct`).
It creates a node per value (payload the value, no successor), links node `i` to
node `i+1` and returns the head. -/
def construct (h : Heap) (v1 : Int) (vs : List Int) : Exec (Heap × Option Nat) := do
  let (h1, a1) := newNode h v1
  let h2 ← appendNodes vs h1 a1
  pure (h2, some a1)

/-! ## Sorting (source lines 158-199) -/

/-- The inner loop `for(int j = 0; j < n-i-1; j++)` of `bubbleSort`, entered with
loop variable `j`.  The state is the array together with the number of times the
comparison `arr[j] > arr[j+1]` has been executed. -/
def bubbleInner (n i : Int) : Nat → Int → List Int × Nat → Exec (List Int × Nat)
  | 0, _, _ => .error .outOfFuel
  | fuel + 1, j, (arr, cmps) => do
    let t ← checkInt (n - i)
    let bound ← checkInt (t - 1)
    if j < bound then do
      let j1 ← checkInt (j + 1)
      let a ← readAt arr j
      let b ← readAt arr j1
      let arr1 ← if a > b then swapAt arr j j1 else pure arr
      bubbleInner n i fuel j1 (arr1, cmps + 1)
    else pure (arr, cmps)

/-- The outer loop `for(int i = 0; i < n-1; i++)` of `bubbleSort`; every run of
the inner loop gets the fuel `budget`. -/
def bubbleOuter (budget : Nat) (n : Int) : Nat → Int → List Int × Nat → Exec (List Int × Nat)
  | 0, _, _ => .error .outOfFuel
  | fuel + 1, i, st => do
    let bound ← checkInt (n - 1)
    if i < bound then do
      let st1 ← bubbleInner n i budget 0 st
      let i1 ← checkInt (i + 1)
      bubbleOuter budget n fuel i1 st1
    else pure st

/-- Embedding of `void bubbleSort(vector<int>& arr)`: returns the array after the
call and the number of element comparisons executed. -/
def bubbleSort (fuel : Nat) (arr : List Int) : Exec (List Int × Nat) :=
  bubbleOuter fuel (sizeToInt arr.length) fuel 0 (arr, 0)

/-- The loop `while(j >= 0 && arr[j] > key)` of `insertionSort`; returns the array
and the value of `j` on exit. -/
def insertionInner (key : Int) : Nat → Int → List Int → Exec (List Int × Int)
  | 0, _, _ => .error .outOfFuel
  | fuel + 1, j, arr =>
    if 0 ≤ j then do
      let a ← readAt arr j
      if a > key then do
        let j1 ← checkInt (j + 1)
        let arr1 ← writeAt arr j1 a
        let j2 ← checkInt (j - 1)
        insertionInner key fuel j2 arr1
      else pure (arr, j)
    else pure (arr, j)

/-- The body of the outer loop of `insertionSort` for one value of `i`: save
`arr[i]` in `key`, shift the larger elements of the prefix one slot to the right,
then store `key` in the slot `j+1` left free. -/
def insertionStep (budget : Nat) (i : Int) (arr : List Int) : Exec (List Int) := do
  let key ← readAt arr i
  let j ← checkInt (i - 1)
  let (arr1, j') ← insertionInner key budget j arr
  let pos ← checkInt (j' + 1)
  writeAt arr1 pos key

/-- The outer loop `for(int i = 1; i < n; i++)` of `insertionSort`. -/
def insertionOuter (budget : Nat) (n : Int) : Nat → Int → List Int → Exec (List Int)
  | 0, _, _ => .error .outOfFuel
  | fuel + 1, i, arr =>
    if i < n then do
      let arr1 ← insertionStep budget i arr
      let i1 ← checkInt (i + 1)
      insertionOuter budget n fuel i1 arr1
    else pure arr

/-- Embedding of `void insertionSort(vector<int>& arr)`. -/
def insertionSort (fuel : Nat) (arr : List Int) : Exec (List Int) :=
  insertionOuter fuel (sizeToInt arr.length) fuel 1 arr

/-- The inner loop `for(int j = i+1; j < n; j++)` of `selectionSort`; it only
updates `minIdx`, which it returns. -/
def selectionInner (arr : List Int) (n : Int) : Nat → Int → Int → Exec Int
  | 0, _, _ => .error .outOfFuel
  | fuel + 1, j, minIdx =>
    if j < n then do
      let a ← readAt arr j
      let m ← readAt arr minIdx
      let minIdx1 := if a < m then j else minIdx
      let j1 ← checkInt (j + 1)
      selectionInner arr n fuel j1 minIdx1
    else pure minIdx

/-- The outer loop `for(int i = 0; i < n-1; i++)` of `selectionSort`. -/
def selectionOuter (budget : Nat) (n : Int) : Nat → Int → List Int → Exec (List Int)
  | 0, _, _ => .error .outOfFuel
  | fuel + 1, i, arr => do
    let bound ← checkInt (n - 1)
    if i < bound then do
      let j0 ← checkInt (i + 1)
      let minIdx ← selectionInner arr n budget j0 i
      let arr1 ← swapAt arr i minIdx
      let i1 ← checkInt (i + 1)
      selectionOuter budget n fuel i1 arr1
    else pure arr

/-- Embedding of `void selectionSort(vector<int>& arr)`. -/
def selectionSort (fuel : Nat) (arr : List Int) : Exec (List Int) :=
  selectionOuter fuel (sizeToInt arr.length) fuel 0 arr

/-! ## Searching (source lines 237-257) -/

/-- The loop of `linearSearch`, entered with loop variable `i`. -/
def linearSearchLoop (arr : List Int) (target : Int) : Nat → Int → Exec Int
  | 0, _ => .error .outOfFuel
  | fuel + 1, i =>
    if intToSize i < arr.length then do
      let x ← readAt arr i
      if x = target then pure i
      else do
        let i1 ← checkInt (i + 1)
        linearSearchLoop arr target fuel i1
    else pure (-1)

/-- Embedding of `int linearSearch(const vector<int>& arr, int target)`. -/
def linearSearch (fuel : Nat) (arr : List Int) (target : Int) : Exec Int :=
  linearSearchLoop arr target fuel 0

/-- The `while(left <= right)` loop of `binarySearch`. -/
def binarySearchLoop (arr : List Int) (target : Int) : Nat → Int → Int → Exec Int
  | 0, _, _ => .error .outOfFuel
  | fuel + 1, left, right =>
    if left ≤ right then do
      let d ← checkInt (right - left)
      let mid ← checkInt (left + Int.tdiv d 2)
      let x ← readAt arr mid
      if x = target then pure mid
      else if x < target then do
        let left1 ← checkInt (mid + 1)
        binarySearchLoop arr target fuel left1 right
      else do
        let right1 ← checkInt (mid - 1)
        binarySearchLoop arr target fuel left right1
    else pure (-1)

/-- Embedding of `int binarySearch(const vector<int>& arr, int target)`.
`arr.size() - 1` is computed in `size_t` and then narrowed to `int`. -/
def binarySearch (fuel : Nat) (arr : List Int) (target : Int) : Exec Int :=
  binarySearchLoop arr target fuel 0
    (sizeToInt ((arr.length + SIZE_MOD - 1) % SIZE_MOD))

/-! ## Auxiliary definitions used in the statements of the lemmas -/

/-- The array with the contents of slots `i` and `j` exchanged. -/
def swapL (l : List Int) (i j : Nat) : List Int :=
  (l.set i (nth l j)).set j (nth l i)

/-- Number of comparisons of a bubble sort that still has `m` elements to place:
`(m - 1) + (m - 2) + ... + 0`. -/
def passesCost : Nat → Nat
  | 0 => 0
  | m + 1 => m + passesCost m

/-- The heap cells of a chain holding `vals`, whose first node is at address `L`:
node `i` points to node `i+1`, the last node has no successor. -/
def chainCells (L : Nat) : List Int → List (Option Node)
  | [] => []
  | [v] => [some ⟨v, none⟩]
  | v :: w :: r => some ⟨v, some (L + 1)⟩ :: chainCells (L + 1) (w :: r)

/-! ## Basic facts about the machine model -/

@[simp]
theorem ok_bind {α β : Type} (a : α) (f : α → Exec β) :
    ((Except.ok a : Exec α) >>= f) = f a := rfl

@[simp]
theorem error_bind {α β : Type} (e : Fault) (f : α → Exec β) :
    ((Except.error e : Exec α) >>= f) = Except.error e := rfl

@[simp]
theorem pure_ok {α : Type} (a : α) : (pure a : Exec α) = Except.ok a := rfl

theorem checkInt_ok {x : Int} (h1 : INT_MIN ≤ x) (h2 : x ≤ INT_MAX) : checkInt x = .ok x := by
  simp [checkInt, h1, h2]

theorem readAt_nat {arr : List Int} {i : Nat} (h : i < arr.length) :
    readAt arr (i : Int) = .ok (nth arr i) := by
  simp [readAt, h]

theorem writeAt_nat {arr : List Int} {i : Nat} (h : i < arr.length) (v : Int) :
    writeAt arr (i : Int) v = .ok (arr.set i v) := by
  simp [writeAt, h]

theorem nth_eq_getElem {arr : List Int} {k : Nat} (h : k < arr.length) : nth arr k = arr[k] := by
  simp [nth, List.getD_eq_getElem?_getD, List.getElem?_eq_getElem h]

theorem nth_set_eq {arr : List Int} {k : Nat} (h : k < arr.length) (v : Int) :
    nth (arr.set k v) k = v := by
  rw [nth_eq_getElem (by simpa using h)]
  simp

theorem nth_set_ne {arr : List Int} {k j : Nat} (h : k ≠ j) (v : Int) :
    nth (arr.set k v) j = nth arr j := by
  simp [nth, List.getD_eq_getElem?_getD, List.getElem?_set_ne h]

theorem ext_nth {a b : List Int} (hl : a.length = b.length)
    (h : ∀ k, k < a.length → nth a k = nth b k) : a = b := by
  apply List.ext_getElem hl
  intro k h1 h2
  have := h k h1
  rwa [nth_eq_getElem h1, nth_eq_getElem h2] at this

@[simp]
theorem nth_cons_zero (a : Int) (t : List Int) : nth (a :: t) 0 = a := rfl

@[simp]
theorem nth_cons_succ (a : Int) (t : List Int) (k : Nat) :
    nth (a :: t) (k + 1) = nth t k := rfl

theorem set_nth_self (l : List Int) (k : Nat) : l.set k (nth l k) = l := by
  apply ext_nth (by simp)
  intro p hp
  by_cases h : k = p
  · subst h
    rw [nth_set_eq (by simpa using hp)]
  · rw [nth_set_ne h]

theorem readAt_succ {arr : List Int} {i : Nat} (h : i + 1 < arr.length) :
    readAt arr ((i : Int) + 1) = .ok (nth arr (i + 1)) := by
  have := readAt_nat h
  simpa using this

theorem writeAt_succ {arr : List Int} {i : Nat} (h : i + 1 < arr.length) (v : Int) :
    writeAt arr ((i : Int) + 1) v = .ok (arr.set (i + 1) v) := by
  have := writeAt_nat h v
  simpa using this

@[simp]
theorem length_swapL (l : List Int) (i j : Nat) : (swapL l i j).length = l.length := by
  simp [swapL]

theorem nth_swapL {l : List Int} {i j : Nat} (hi : i < l.length) (hj : j < l.length) (k : Nat) :
    nth (swapL l i j) k = if k = j then nth l i else if k = i then nth l j else nth l k := by
  unfold swapL
  by_cases hkj : k = j
  · subst hkj
    simp [nth_set_eq (show k < (l.set i (nth l k)).length by simpa using hj)]
  · by_cases hki : k = i
    · subst hki
      rw [nth_set_ne (Ne.symm hkj), nth_set_eq hi]
      simp [hkj]
    · rw [nth_set_ne (Ne.symm hkj), nth_set_ne (Ne.symm hki)]
      simp [hkj, hki]

theorem nth_swapL_left {l : List Int} {i j : Nat} (hi : i < l.length) (hj : j < l.length) :
    nth (swapL l i j) i = nth l j := by
  rw [nth_swapL hi hj]
  by_cases h : i = j
  · rw [if_pos h, h]
  · rw [if_neg h, if_pos rfl]

theorem nth_swapL_right {l : List Int} {i j : Nat} (hi : i < l.length) (hj : j < l.length) :
    nth (swapL l i j) j = nth l i := by
  rw [nth_swapL hi hj, if_pos rfl]

theorem nth_swapL_other {l : List Int} {i j k : Nat} (hi : i < l.length) (hj : j < l.length)
    (hki : k ≠ i) (hkj : k ≠ j) : nth (swapL l i j) k = nth l k := by
  rw [nth_swapL hi hj, if_neg hkj, if_neg hki]

theorem swapL_self (l : List Int) (i : Nat) : swapL l i i = l := by
  unfold swapL
  rw [set_nth_self, set_nth_self]

theorem swapL_comm (l : List Int) (i j : Nat) : swapL l i j = swapL l j i := by
  by_cases h : i = j
  · subst h; rfl
  · unfold swapL
    rw [List.set_comm _ _ _ h]

theorem swapAt_nat {l : List Int} {i j : Nat} (hi : i < l.length) (hj : j < l.length) :
    swapAt l (i : Int) (j : Int) = .ok (swapL l i j) := by
  unfold swapAt swapL
  simp [readAt_nat hi, readAt_nat hj, writeAt_nat hi,
    writeAt_nat (show j < (l.set i (nth l j)).length by simpa using hj)]

theorem swapAt_succ {l : List Int} {i : Nat} (hj : i + 1 < l.length) :
    swapAt l (i : Int) ((i : Int) + 1) = .ok (swapL l i (i + 1)) := by
  have := swapAt_nat (show i < l.length by omega) hj
  simpa using this

theorem cons_set_perm : ∀ (t : List Int) (j : Nat) (a : Int), j < t.length →
    (nth t j :: t.set j a).Perm (a :: t)
  | [], _, _, h => by simp at h
  | b :: t, 0, a, _ => by
    simpa using List.Perm.swap a b t
  | b :: t, j + 1, a, h => by
    have ih := cons_set_perm t j a (by simpa using h)
    simp only [nth_cons_succ, List.set_cons_succ]
    exact (List.Perm.swap b (nth t j) (t.set j a)).trans
      ((ih.cons b).trans (List.Perm.swap a b t))

theorem swapL_perm_lt : ∀ (l : List Int) (i j : Nat), i < j → j < l.length →
    (swapL l i j).Perm l
  | [], _, _, _, h => by simp at h
  | a :: t, 0, j + 1, _, h => by
    have := cons_set_perm t j a (by simpa using h)
    simpa [swapL] using this
  | a :: t, i + 1, j + 1, hij, h => by
    have ih := swapL_perm_lt t i j (by omega) (by simpa using h)
    have : swapL (a :: t) (i + 1) (j + 1) = a :: swapL t i j := by
      simp [swapL]
    rw [this]
    exact ih.cons a

theorem swapL_perm {l : List Int} {i j : Nat} (hi : i < l.length) (hj : j < l.length) :
    (swapL l i j).Perm l := by
  rcases Nat.lt_trichotomy i j with h | h | h
  · exact swapL_perm_lt l i j h hj
  · subst h; rw [swapL_self]
  · rw [swapL_comm]; exact swapL_perm_lt l j i h hi

theorem intToSize_nat (i : Nat) (h : i < 2147483648) : intToSize (i : Int) = i := by
  unfold intToSize SIZE_MOD
  omega

theorem sizeToInt_small (s : Nat) (h : s < 2147483648) : sizeToInt s = s := by
  unfold sizeToInt
  omega

theorem mem_iff_nth (arr : List Int) (v : Int) :
    v ∈ arr ↔ ∃ j, j < arr.length ∧ nth arr j = v := by
  rw [List.mem_iff_getElem]
  constructor
  · rintro ⟨j, hj, h⟩
    exact ⟨j, hj, by rw [nth_eq_getElem hj]; exact h⟩
  · rintro ⟨j, hj, h⟩
    refine ⟨j, hj, ?_⟩
    rw [nth_eq_getElem hj] at h; exact h

/-! ## Linear search -/

theorem linearSearchLoop_spec (arr : List Int) (target : Int) (hlen : arr.length < 2147483648) :
    ∀ (k i : Nat), i + k = arr.length → (∀ j, j < i → nth arr j ≠ target) →
      ∃ r : Int, (∀ fuel, k < fuel → linearSearchLoop arr target fuel i = .ok r) ∧
        ((r = -1 ∧ ∀ j, j < arr.length → nth arr j ≠ target) ∨
         (0 ≤ r ∧ r < arr.length ∧ nth arr r.toNat = target ∧
            ∀ j, j < r.toNat → nth arr j ≠ target)) := by
  intro k
  induction k with
  | zero =>
    intro i hi hpre
    refine ⟨-1, ?_, Or.inl ⟨rfl, ?_⟩⟩
    · intro fuel hf
      obtain ⟨f, rfl⟩ : ∃ f, fuel = f + 1 := ⟨fuel - 1, by omega⟩
      have : ¬ (i < arr.length) := by omega
      simp [linearSearchLoop, intToSize_nat i (by omega), this]
    · intro j hj
      exact hpre j (by omega)
  | succ k ih =>
    intro i hi hpre
    have hi' : i < arr.length := by omega
    by_cases hx : nth arr i = target
    · refine ⟨i, ?_, Or.inr ⟨by omega, by exact_mod_cast hi', by simpa using hx, ?_⟩⟩
      · intro fuel hf
        obtain ⟨f, rfl⟩ : ∃ f, fuel = f + 1 := ⟨fuel - 1, by omega⟩
        simp [linearSearchLoop, intToSize_nat i (by omega), hi', readAt_nat hi', hx]
      · intro j hj
        exact hpre j (by simpa using hj)
    · obtain ⟨r, hr, hpost⟩ := ih (i + 1) (by omega) (by
        intro j hj
        by_cases hji : j = i
        · subst hji; exact hx
        · exact hpre j (by omega))
      refine ⟨r, ?_, hpost⟩
      intro fuel hf
      obtain ⟨f, rfl⟩ : ∃ f, fuel = f + 1 := ⟨fuel - 1, by omega⟩
      have hc : checkInt ((i : Int) + 1) = .ok ((i : Int) + 1) :=
        checkInt_ok (by unfold INT_MIN; omega) (by unfold INT_MAX; omega)
      have := hr f (by omega)
      simp [linearSearchLoop, intToSize_nat i (by omega), hi', readAt_nat hi', hx, hc]
      simpa using this

/-- C2: for every array of length below 2^31 and every target, `linearSearch`
returns (for every fuel above the length) the least index holding the target when
the target occurs in the array, and `-1` when it does not occur. -/
theorem linearSearch_returns_first_index (arr : List Int) (target : Int)
    (hlen : arr.length < 2 ^ 31) :
    ∃ r : Int, (∀ fuel, arr.length < fuel → linearSearch fuel arr target = .ok r) ∧
      (target ∈ arr → 0 ≤ r ∧ r < arr.length ∧ nth arr r.toNat = target ∧
          ∀ j, j < r.toNat → nth arr j ≠ target) ∧
      (target ∉ arr → r = -1) := by
  have hlen' : arr.length < 2147483648 := by simpa using hlen
  obtain ⟨r, hr, hpost⟩ :=
    linearSearchLoop_spec arr target hlen' arr.length 0 (by simp) (by intro j hj; omega)
  refine ⟨r, ?_, ?_, ?_⟩
  · intro fuel hf
    simpa [linearSearch] using hr fuel hf
  · intro hmem
    rcases hpost with ⟨_, hno⟩ | hfound
    · obtain ⟨j, hj, hjt⟩ := (mem_iff_nth arr target).1 hmem
      exact absurd hjt (hno j hj)
    · exact hfound
  · intro hmem
    rcases hpost with ⟨h1, _⟩ | ⟨h0, h1, h2, _⟩
    · exact h1
    · exact absurd ((mem_iff_nth arr target).2 ⟨r.toNat, by omega, h2⟩) hmem

/-- Witness for C2 on the array of `demonstrateSearching`, together with the
value the demonstration prints. -/
theorem linearSearch_returns_first_index_witness :
    linearSearch 6 [2, 3, 4, 10, 40] 10 = .ok 3 ∧
    ∃ r : Int, (∀ fuel, ([2, 3, 4, 10, 40] : List Int).length < fuel →
        linearSearch fuel [2, 3, 4, 10, 40] 10 = .ok r) ∧
      ((10 : Int) ∈ ([2, 3, 4, 10, 40] : List Int) →
        0 ≤ r ∧ r < ([2, 3, 4, 10, 40] : List Int).length ∧
          nth [2, 3, 4, 10, 40] r.toNat = 10 ∧
          ∀ j, j < r.toNat → nth [2, 3, 4, 10, 40] j ≠ 10) ∧
      ((10 : Int) ∉ ([2, 3, 4, 10, 40] : List Int) → r = -1) :=
  ⟨by decide, linearSearch_returns_first_index [2, 3, 4, 10, 40] 10 (by decide)⟩

/-! ## Binary search -/

theorem sorted_iff_nth (arr : List Int) :
    List.Sorted (· ≤ ·) arr ↔ ∀ i j, i < j → j < arr.length → nth arr i ≤ nth arr j := by
  unfold List.Sorted
  rw [List.pairwise_iff_getElem]
  constructor
  · intro h i j hij hj
    rw [nth_eq_getElem (by omega), nth_eq_getElem hj]
    exact h i j (by omega) hj hij
  · intro h i j hi hj hij
    have := h i j hij hj
    rwa [nth_eq_getElem hi, nth_eq_getElem hj] at this

theorem binarySearchLoop_spec (arr : List Int) (target : Int) (hlen : arr.length < 2147483648) :
    ∀ (k : Nat) (l r : Int), 0 ≤ l → r < arr.length → r - l + 1 ≤ k →
      ∃ res : Int, (∀ fuel, k < fuel → binarySearchLoop arr target fuel l r = .ok res) ∧
        ((res = -1 ∧
            (List.Sorted (· ≤ ·) arr →
              (∀ j : Nat, j < arr.length → nth arr j = target → l ≤ j ∧ (j : Int) ≤ r) →
              ∀ j : Nat, j < arr.length → nth arr j ≠ target)) ∨
         (0 ≤ res ∧ res < arr.length ∧ nth arr res.toNat = target)) := by
  intro k
  induction k with
  | zero =>
    intro l r hl hr hk
    refine ⟨-1, ?_, Or.inl ⟨rfl, ?_⟩⟩
    · intro fuel hf
      obtain ⟨f, rfl⟩ : ∃ f, fuel = f + 1 := ⟨fuel - 1, by omega⟩
      have : ¬ (l ≤ r) := by omega
      simp [binarySearchLoop, this]
    · intro _ hinv j hj hjt
      have := hinv j hj hjt
      omega
  | succ k ih =>
    intro l r hl hr hk
    by_cases hlr : l ≤ r
    · have hd : checkInt (r - l) = .ok (r - l) :=
        checkInt_ok (by unfold INT_MIN; omega) (by unfold INT_MAX; omega)
      have hdiv : Int.tdiv (r - l) 2 = (r - l) / 2 :=
        Int.tdiv_eq_ediv (by omega) (by omega)
      obtain ⟨m, hmdef⟩ : ∃ m : Nat, (m : Int) = l + (r - l) / 2 :=
        ⟨(l + (r - l) / 2).toNat, by omega⟩
      have hmid : l + Int.tdiv (r - l) 2 = (m : Int) := by rw [hdiv]; omega
      have hm : checkInt (m : Int) = .ok (m : Int) :=
        checkInt_ok (by unfold INT_MIN; omega) (by unfold INT_MAX; omega)
      have hml : l ≤ m := by omega
      have hmr : (m : Int) ≤ r := by omega
      have hmlen : m < arr.length := by omega
      by_cases hx : nth arr m = target
      · refine ⟨m, ?_, Or.inr ⟨by omega, by omega, by simpa using hx⟩⟩
        intro fuel hf
        obtain ⟨f, rfl⟩ : ∃ f, fuel = f + 1 := ⟨fuel - 1, by omega⟩
        simp [binarySearchLoop, hlr, hd, hmid, hm, readAt_nat hmlen, hx]
      · by_cases hlt : nth arr m < target
        · obtain ⟨res, hres, hpost⟩ := ih ((m : Int) + 1) r (by omega) hr (by omega)
          have hc : checkInt ((m : Int) + 1) = .ok ((m : Int) + 1) :=
            checkInt_ok (by unfold INT_MIN; omega) (by unfold INT_MAX; omega)
          refine ⟨res, ?_, ?_⟩
          · intro fuel hf
            obtain ⟨f, rfl⟩ : ∃ f, fuel = f + 1 := ⟨fuel - 1, by omega⟩
            simp [binarySearchLoop, hlr, hd, hmid, hm, readAt_nat hmlen, hx, hlt, hc]
            exact hres f (by omega)
          · rcases hpost with ⟨h1, h2⟩ | h
            · refine Or.inl ⟨h1, ?_⟩
              intro hs hinv
              apply h2 hs
              intro j hj hjt
              have hb := hinv j hj hjt
              refine ⟨?_, hb.2⟩
              by_contra hcon
              have hjm : j ≤ m := by omega
              rcases Nat.lt_or_eq_of_le hjm with hjm | hjm
              · have := (sorted_iff_nth arr).1 hs j m hjm hmlen
                omega
              · subst hjm; exact hx hjt
            · exact Or.inr h
        · obtain ⟨res, hres, hpost⟩ := ih l ((m : Int) - 1) hl (by omega) (by omega)
          have hc : checkInt ((m : Int) - 1) = .ok ((m : Int) - 1) :=
            checkInt_ok (by unfold INT_MIN; omega) (by unfold INT_MAX; omega)
          refine ⟨res, ?_, ?_⟩
          · intro fuel hf
            obtain ⟨f, rfl⟩ : ∃ f, fuel = f + 1 := ⟨fuel - 1, by omega⟩
            simp [binarySearchLoop, hlr, hd, hmid, hm, readAt_nat hmlen, hx, hlt, hc]
            exact hres f (by omega)
          · rcases hpost with ⟨h1, h2⟩ | h
            · refine Or.inl ⟨h1, ?_⟩
              intro hs hinv
              apply h2 hs
              intro j hj hjt
              have hb := hinv j hj hjt
              refine ⟨hb.1, ?_⟩
              by_contra hcon
              have hjm : m ≤ j := by omega
              rcases Nat.lt_or_eq_of_le hjm with hjm | hjm
              · have := (sorted_iff_nth arr).1 hs m j hjm hj
                omega
              · subst hjm; exact hx hjt
            · exact Or.inr h
    · refine ⟨-1, ?_, Or.inl ⟨rfl, ?_⟩⟩
      · intro fuel hf
        obtain ⟨f, rfl⟩ : ∃ f, fuel = f + 1 := ⟨fuel - 1, by omega⟩
        simp [binarySearchLoop, hlr]
      · intro _ hinv j hj hjt
        have := hinv j hj hjt
        omega

theorem binarySearch_right_init (n : Nat) (h : n < 2147483648) :
    sizeToInt ((n + SIZE_MOD - 1) % SIZE_MOD) = (n : Int) - 1 := by
  unfold sizeToInt SIZE_MOD
  omega

theorem binarySearch_spec (arr : List Int) (target : Int) (hlen : arr.length < 2147483648) :
    ∃ res : Int, (∀ fuel, arr.length < fuel → binarySearch fuel arr target = .ok res) ∧
      ((res = -1 ∧ (List.Sorted (· ≤ ·) arr → ∀ j : Nat, j < arr.length → nth arr j ≠ target)) ∨
       (0 ≤ res ∧ res < arr.length ∧ nth arr res.toNat = target)) := by
  obtain ⟨res, hres, hpost⟩ :=
    binarySearchLoop_spec arr target hlen arr.length 0 ((arr.length : Int) - 1)
      (by omega) (by omega) (by omega)
  refine ⟨res, ?_, ?_⟩
  · intro fuel hf
    unfold binarySearch
    rw [binarySearch_right_init arr.length hlen]
    exact hres fuel hf
  · rcases hpost with ⟨h1, h2⟩ | h
    · refine Or.inl ⟨h1, fun hs => h2 hs ?_⟩
      intro j hj _
      omega
    · exact Or.inr h

/-- C1: on a sorted array of length below 2^31, `binarySearch` returns (for every
fuel above the length) an in-range index holding the target when the target occurs
in the array, and `-1` when it does not. -/
theorem binarySearch_sorted_correct (arr : List Int) (target : Int)
    (hlen : arr.length < 2 ^ 31) (hsorted : List.Sorted (· ≤ ·) arr) :
    ∃ r : Int, (∀ fuel, arr.length < fuel → binarySearch fuel arr target = .ok r) ∧
      (target ∈ arr → 0 ≤ r ∧ r < arr.length ∧ nth arr r.toNat = target) ∧
      (target ∉ arr → r = -1) := by
  obtain ⟨r, hr, hpost⟩ := binarySearch_spec arr target (by simpa using hlen)
  refine ⟨r, hr, ?_, ?_⟩
  · intro hmem
    rcases hpost with ⟨_, hno⟩ | hfound
    · obtain ⟨j, hj, hjt⟩ := (mem_iff_nth arr target).1 hmem
      exact absurd hjt (hno hsorted j hj)
    · exact hfound
  · intro hmem
    rcases hpost with ⟨h1, _⟩ | ⟨h0, h1, h2⟩
    · exact h1
    · exact absurd ((mem_iff_nth arr target).2 ⟨r.toNat, by omega, h2⟩) hmem

/-- Witness for C1 on the array of `demonstrateSearching`: the target 10 is found
at index 3 and the target 5 is reported absent. -/
theorem binarySearch_sorted_correct_witness :
    binarySearch 6 [2, 3, 4, 10, 40] 10 = .ok 3 ∧
    binarySearch 6 [2, 3, 4, 10, 40] 5 = .ok (-1) ∧
    ∃ r : Int, (∀ fuel, ([2, 3, 4, 10, 40] : List Int).length < fuel →
        binarySearch fuel [2, 3, 4, 10, 40] 10 = .ok r) ∧
      ((10 : Int) ∈ ([2, 3, 4, 10, 40] : List Int) →
        0 ≤ r ∧ r < ([2, 3, 4, 10, 40] : List Int).length ∧
          nth [2, 3, 4, 10, 40] r.toNat = 10) ∧
      ((10 : Int) ∉ ([2, 3, 4, 10, 40] : List Int) → r = -1) :=
  ⟨by decide, by decide,
    binarySearch_sorted_correct [2, 3, 4, 10, 40] 10 (by decide) (by decide)⟩

/-- C10: on every array of length below 2^31, sorted or not, `binarySearch` runs to
completion without a fault (no out-of-bounds read, no `int` overflow, any fuel above
the length is enough) and its result is `-1` or an in-range index holding the
target; on the unsorted array `[3, 1, 2]` it misses the present target 3. -/
theorem binarySearch_safe_on_any_array :
    (∀ (arr : List Int) (target : Int), arr.length < 2 ^ 31 →
      ∃ r : Int, (∀ fuel, arr.length < fuel → binarySearch fuel arr target = .ok r) ∧
        (r = -1 ∨ (0 ≤ r ∧ r < arr.length ∧ nth arr r.toNat = target))) ∧
    binarySearch 4 [] 7 = .ok (-1) ∧
    binarySearch 4 [3, 1, 2] 3 = .ok (-1) := by
  refine ⟨?_, by decide, by decide⟩
  intro arr target hlen
  obtain ⟨r, hr, hpost⟩ := binarySearch_spec arr target (by simpa using hlen)
  refine ⟨r, hr, ?_⟩
  rcases hpost with ⟨h1, _⟩ | h
  · exact Or.inl h1
  · exact Or.inr h

/-- Witness for C10 on an unsorted array. -/
theorem binarySearch_safe_on_any_array_witness :
    ∃ r : Int, (∀ fuel, ([3, 1, 2] : List Int).length < fuel →
        binarySearch fuel [3, 1, 2] 2 = .ok r) ∧
      (r = -1 ∨ (0 ≤ r ∧ r < ([3, 1, 2] : List Int).length ∧ nth [3, 1, 2] r.toNat = 2)) :=
  binarySearch_safe_on_any_array.1 [3, 1, 2] 2 (by decide)

/-! ## Bubble sort -/

theorem bubbleInner_spec (n i : Nat) (hn : n < 2147483648) (hi : i + 1 < n)
    (N : Nat) (hnN : n ≤ N) :
    ∀ (k j : Nat) (arr : List Int) (cmps : Nat), arr.length = N → j + k + i + 1 = n →
      (∀ p, p ≤ j → nth arr p ≤ nth arr j) →
      ∃ out : List Int,
        (∀ fuel, k < fuel → bubbleInner n i fuel j (arr, cmps) = .ok (out, cmps + k)) ∧
        out.length = N ∧ out.Perm arr ∧
        (∀ p, n ≤ p + i → nth out p = nth arr p) ∧
        (∀ p, p + i + 1 ≤ n → nth out p ≤ nth out (n - i - 1)) ∧
        (∀ x, (∀ p, p + i < n → nth arr p ≤ x) → ∀ p, p + i < n → nth out p ≤ x) ∧
        ((∀ p, j ≤ p → p + i + 1 < n → nth arr p ≤ nth arr (p + 1)) → out = arr) := by
  have hc1 : checkInt ((n : Int) - i) = .ok ((n : Int) - i) :=
    checkInt_ok (by unfold INT_MIN; omega) (by unfold INT_MAX; omega)
  have hc2 : checkInt ((n : Int) - i - 1) = .ok ((n : Int) - i - 1) :=
    checkInt_ok (by unfold INT_MIN; omega) (by unfold INT_MAX; omega)
  intro k
  induction k with
  | zero =>
    intro j arr cmps hlen hj hmax
    refine ⟨arr, ?_, hlen, List.Perm.refl _, fun _ _ => rfl, ?_, fun x hx => hx, fun _ => rfl⟩
    · intro fuel hf
      obtain ⟨f, rfl⟩ : ∃ f, fuel = f + 1 := ⟨fuel - 1, by omega⟩
      have hcond : ¬ ((j : Int) < (n : Int) - i - 1) := by omega
      simp [bubbleInner, hc1, hc2, hcond]
    · intro p hp
      have : n - i - 1 = j := by omega
      rw [this]
      exact hmax p (by omega)
  | succ k ih =>
    intro j arr cmps hlen hj hmax
    have hcond : (j : Int) < (n : Int) - i - 1 := by omega
    have hc3 : checkInt ((j : Int) + 1) = .ok ((j : Int) + 1) :=
      checkInt_ok (by unfold INT_MIN; omega) (by unfold INT_MAX; omega)
    have hj0 : j < arr.length := by omega
    have hj1 : j + 1 < arr.length := by omega
    have hcnt : cmps + 1 + k = cmps + (k + 1) := by omega
    by_cases hgt : nth arr (j + 1) < nth arr j
    · -- the two neighbours are exchanged
      have hnth := fun q => nth_swapL hj0 hj1 q
      obtain ⟨out, hrun, hl, hperm, hsuf, hmx, hbd, _⟩ :=
        ih (j + 1) (swapL arr j (j + 1)) (cmps + 1) (by simpa using hlen) (by omega) (by
          intro p hp
          rw [hnth p, hnth (j + 1), if_pos rfl]
          split_ifs with h1 h2
          · exact le_refl _
          · omega
          · exact hmax p (by omega))
      refine ⟨out, ?_, hl, hperm.trans (swapL_perm hj0 hj1), ?_, hmx, ?_, ?_⟩
      · intro fuel hf
        obtain ⟨f, rfl⟩ : ∃ f, fuel = f + 1 := ⟨fuel - 1, by omega⟩
        have := hrun f (by omega)
        simp only [Nat.cast_add, Nat.cast_one] at this
        simp [bubbleInner, hc1, hc2, hcond, hc3, readAt_nat hj0, readAt_succ hj1, hgt,
          swapAt_succ hj1]
        rw [this, hcnt]
      · intro p hp
        rw [hsuf p hp, hnth p]
        have h1 : p ≠ j + 1 := by omega
        have h2 : p ≠ j := by omega
        simp [h1, h2]
      · intro x hx
        apply hbd x
        intro p hp
        rw [hnth p]
        split_ifs with h1 h2
        · exact hx j (by omega)
        · exact hx (j + 1) (by omega)
        · exact hx p hp
      · intro hs
        have := hs j (le_refl j) (by omega)
        omega
    · -- the two neighbours stay in place
      obtain ⟨out, hrun, hl, hperm, hsuf, hmx, hbd, hnoop⟩ :=
        ih (j + 1) arr (cmps + 1) hlen (by omega) (by
          intro p hp
          by_cases h1 : p = j + 1
          · simp [h1]
          · have := hmax p (by omega)
            omega)
      refine ⟨out, ?_, hl, hperm, hsuf, hmx, hbd, ?_⟩
      · intro fuel hf
        obtain ⟨f, rfl⟩ : ∃ f, fuel = f + 1 := ⟨fuel - 1, by omega⟩
        have := hrun f (by omega)
        simp only [Nat.cast_add, Nat.cast_one] at this
        simp [bubbleInner, hc1, hc2, hcond, hc3, readAt_nat hj0, readAt_succ hj1, hgt]
        rw [this, hcnt]
      · intro hs
        exact hnoop (fun p hp hp2 => hs p (by omega) hp2)

theorem passesCost_eq (m : Nat) : passesCost m = m * (m - 1) / 2 := by
  induction m with
  | zero => rfl
  | succ m ih =>
    simp only [passesCost, ih, Nat.add_sub_cancel]
    cases m with
    | zero => rfl
    | succ m =>
      simp only [Nat.add_sub_cancel]
      have h : (m + 1 + 1) * (m + 1) = (m + 1) * m + (m + 1) * 2 := by ring
      rw [h, Nat.add_mul_div_right _ _ (by norm_num : 0 < 2)]
      omega

theorem bubbleOuter_spec (n : Nat) (hn : n < 2147483648) (hn0 : 0 < n)
    (N : Nat) (hnN : n ≤ N) :
    ∀ (k i : Nat) (arr : List Int) (cmps : Nat), arr.length = N → i + k + 1 = n →
      (∀ p q, n ≤ p + i → p < q → q < n → nth arr p ≤ nth arr q) →
      (∀ p q, p + i < n → n ≤ q + i → q < n → nth arr p ≤ nth arr q) →
      ∃ out : List Int,
        (∀ budget fuel, n ≤ budget → k < fuel →
          bubbleOuter budget n fuel i (arr, cmps) = .ok (out, cmps + passesCost (k + 1))) ∧
        out.length = N ∧ out.Perm arr ∧
        (∀ p q, p < q → q < n → nth out p ≤ nth out q) ∧
        ((∀ p, p + 1 < n → nth arr p ≤ nth arr (p + 1)) → out = arr) := by
  have hc1 : checkInt ((n : Int) - 1) = .ok ((n : Int) - 1) :=
    checkInt_ok (by unfold INT_MIN; omega) (by unfold INT_MAX; omega)
  intro k
  induction k with
  | zero =>
    intro i arr cmps hlen hi hsuf hpre
    refine ⟨arr, ?_, hlen, List.Perm.refl _, ?_, fun _ => rfl⟩
    · intro budget fuel _ hf
      obtain ⟨f, rfl⟩ : ∃ f, fuel = f + 1 := ⟨fuel - 1, by omega⟩
      have hcond : ¬ ((i : Int) < (n : Int) - 1) := by omega
      simp [bubbleOuter, hc1, hcond, passesCost]
    · intro p q hpq hq
      by_cases hp : p = 0
      · exact hpre p q (by omega) (by omega) hq
      · exact hsuf p q (by omega) hpq hq
  | succ k ih =>
    intro i arr cmps hlen hi hsuf hpre
    have hcond : (i : Int) < (n : Int) - 1 := by omega
    have hc2 : checkInt ((i : Int) + 1) = .ok ((i : Int) + 1) :=
      checkInt_ok (by unfold INT_MIN; omega) (by unfold INT_MAX; omega)
    obtain ⟨mid, hrun1, hl1, hperm1, hsuf1, hmx1, hbd1, hnoop1⟩ :=
      bubbleInner_spec n i hn (by omega) N hnN (k + 1) 0 arr cmps hlen (by omega) (by
        intro p hp
        have : p = 0 := by omega
        subst this
        exact le_refl _)
    obtain ⟨out, hrun2, hl2, hperm2, hsorted2, hnoop2⟩ :=
      ih (i + 1) mid (cmps + (k + 1)) hl1 (by omega) (by
        intro p q hp hpq hq
        by_cases hpe : p + i + 1 = n
        · rw [hsuf1 q (by omega)]
          exact hbd1 (nth arr q) (fun p' hp' => hpre p' q hp' (by omega) hq) p (by omega)
        · rw [hsuf1 q (by omega), hsuf1 p (by omega)]
          exact hsuf p q (by omega) hpq hq) (by
        intro p q hp hq1 hq
        by_cases hqe : q + i + 1 = n
        · have : q = n - i - 1 := by omega
          rw [this]
          exact hmx1 p (by omega)
        · rw [hsuf1 q (by omega)]
          exact hbd1 (nth arr q) (fun p' hp' => hpre p' q hp' (by omega) hq) p (by omega))
    refine ⟨out, ?_, hl2, hperm2.trans hperm1, hsorted2, ?_⟩
    · intro budget fuel hb hf
      obtain ⟨f, rfl⟩ : ∃ f, fuel = f + 1 := ⟨fuel - 1, by omega⟩
      have h1 := hrun1 budget (by omega)
      have h2 := hrun2 budget f hb (by omega)
      simp only [Nat.cast_add, Nat.cast_one] at h2
      have hcnt : cmps + (k + 1) + passesCost (k + 1) = cmps + passesCost (k + 1 + 1) := by
        simp only [passesCost]; omega
      simp only [Nat.cast_zero] at h1
      simp [bubbleOuter, hc1, hcond, hc2, h1]
      rw [h2, hcnt]
    · intro hs
      have hm : mid = arr := hnoop1 (fun p _ hp => hs p (by omega))
      rw [hm] at hnoop2
      exact hnoop2 hs

theorem bubbleSort_spec (arr : List Int) (hlen : arr.length < 2147483648) :
    ∃ out : List Int,
      (∀ fuel, arr.length < fuel →
        bubbleSort fuel arr = .ok (out, arr.length * (arr.length - 1) / 2)) ∧
      List.Sorted (· ≤ ·) out ∧ out.Perm arr ∧ (List.Sorted (· ≤ ·) arr → out = arr) := by
  by_cases h0 : arr.length = 0
  · refine ⟨arr, ?_, ?_, List.Perm.refl _, fun _ => rfl⟩
    · intro fuel hf
      obtain ⟨f, rfl⟩ : ∃ f, fuel = f + 1 := ⟨fuel - 1, by omega⟩
      have : arr = [] := List.length_eq_zero.1 h0
      subst this
      rfl
    · have : arr = [] := List.length_eq_zero.1 h0
      subst this
      exact List.sorted_nil
  · obtain ⟨out, hrun, hl, hperm, hsorted, hnoop⟩ :=
      bubbleOuter_spec arr.length hlen (by omega) arr.length (le_refl _) (arr.length - 1) 0
        arr 0 rfl (by omega)
        (by intro p q hp hpq hq; omega) (by intro p q hp hq1 hq; omega)
    refine ⟨out, ?_, ?_, hperm, ?_⟩
    · intro fuel hf
      have := hrun fuel fuel (by omega) (by omega)
      unfold bubbleSort
      rw [sizeToInt_small _ hlen]
      simp only [Nat.cast_zero, Nat.zero_add] at this
      rw [this, passesCost_eq]
      have : arr.length - 1 + 1 = arr.length := by omega
      rw [this]
    · rw [sorted_iff_nth, hl]
      exact hsorted
    · intro hs
      apply hnoop
      intro p hp
      exact (sorted_iff_nth arr).1 hs p (p + 1) (by omega) hp

/-! ## Selection sort -/

theorem selectionInner_spec (arr : List Int) (n i : Nat) (hn : n < 2147483648)
    (hlen : n ≤ arr.length) :
    ∀ (k j m : Nat), i ≤ m → m < j → j + k = n →
      (∀ p, i ≤ p → p < j → nth arr m ≤ nth arr p) →
      (∀ p, i ≤ p → p < m → nth arr m < nth arr p) →
      ∃ m' : Nat, (∀ fuel, k < fuel → selectionInner arr n fuel j m = .ok (m' : Int)) ∧
        i ≤ m' ∧ m' < n ∧
        (∀ p, i ≤ p → p < n → nth arr m' ≤ nth arr p) ∧
        (∀ p, i ≤ p → p < m' → nth arr m' < nth arr p) := by
  intro k
  induction k with
  | zero =>
    intro j m him hmj hj hmin hfirst
    refine ⟨m, ?_, him, by omega, fun p hp1 hp2 => hmin p hp1 (by omega), hfirst⟩
    intro fuel hf
    obtain ⟨f, rfl⟩ : ∃ f, fuel = f + 1 := ⟨fuel - 1, by omega⟩
    have hcond : ¬ ((j : Int) < (n : Int)) := by omega
    simp [selectionInner, hcond]
  | succ k ih =>
    intro j m him hmj hj hmin hfirst
    have hcond : (j : Int) < (n : Int) := by omega
    have hc : checkInt ((j : Int) + 1) = .ok ((j : Int) + 1) :=
      checkInt_ok (by unfold INT_MIN; omega) (by unfold INT_MAX; omega)
    have hj0 : j < arr.length := by omega
    have hm0 : m < arr.length := by omega
    by_cases hlt : nth arr j < nth arr m
    · obtain ⟨m', hrun, h1, h2, h3, h4⟩ := ih (j + 1) j (by omega) (by omega) (by omega)
        (by
          intro p hp1 hp2
          by_cases hpj : p = j
          · subst hpj; exact le_refl _
          · have := hmin p hp1 (by omega)
            omega)
        (by
          intro p hp1 hp2
          have := hmin p hp1 hp2
          omega)
      refine ⟨m', ?_, h1, h2, h3, h4⟩
      intro fuel hf
      obtain ⟨f, rfl⟩ : ∃ f, fuel = f + 1 := ⟨fuel - 1, by omega⟩
      have := hrun f (by omega)
      simp only [Nat.cast_add, Nat.cast_one] at this
      simp [selectionInner, hcond, hc, readAt_nat hj0, readAt_nat hm0, hlt]
      exact this
    · obtain ⟨m', hrun, h1, h2, h3, h4⟩ := ih (j + 1) m him (by omega) (by omega)
        (by
          intro p hp1 hp2
          by_cases hpj : p = j
          · subst hpj; omega
          · exact hmin p hp1 (by omega))
        hfirst
      refine ⟨m', ?_, h1, h2, h3, h4⟩
      intro fuel hf
      obtain ⟨f, rfl⟩ : ∃ f, fuel = f + 1 := ⟨fuel - 1, by omega⟩
      have := hrun f (by omega)
      simp only [Nat.cast_add, Nat.cast_one] at this
      simp [selectionInner, hcond, hc, readAt_nat hj0, readAt_nat hm0, hlt]
      exact this

theorem selectionOuter_spec (n : Nat) (hn : n < 2147483648) (hn0 : 0 < n)
    (N : Nat) (hnN : n ≤ N) :
    ∀ (k i : Nat) (arr : List Int), arr.length = N → i + k + 1 = n →
      (∀ p q, p < q → q < i → nth arr p ≤ nth arr q) →
      (∀ p q, p < i → i ≤ q → q < n → nth arr p ≤ nth arr q) →
      ∃ out : List Int,
        (∀ budget fuel, n ≤ budget → k < fuel →
          selectionOuter budget n fuel i arr = .ok out) ∧
        out.length = N ∧ out.Perm arr ∧
        (∀ p q, p < q → q < n → nth out p ≤ nth out q) ∧
        ((∀ p q, p < q → q < n → nth arr p ≤ nth arr q) → out = arr) := by
  have hc1 : checkInt ((n : Int) - 1) = .ok ((n : Int) - 1) :=
    checkInt_ok (by unfold INT_MIN; omega) (by unfold INT_MAX; omega)
  intro k
  induction k with
  | zero =>
    intro i arr hlen hi hsorted hpre
    refine ⟨arr, ?_, hlen, List.Perm.refl _, ?_, fun _ => rfl⟩
    · intro budget fuel _ hf
      obtain ⟨f, rfl⟩ : ∃ f, fuel = f + 1 := ⟨fuel - 1, by omega⟩
      have hcond : ¬ ((i : Int) < (n : Int) - 1) := by omega
      simp [selectionOuter, hc1, hcond]
    · intro p q hpq hq
      by_cases hqi : q < i
      · exact hsorted p q hpq hqi
      · exact hpre p q (by omega) (by omega) hq
  | succ k ih =>
    intro i arr hlen hi hsorted hpre
    have hcond : (i : Int) < (n : Int) - 1 := by omega
    have hc2 : checkInt ((i : Int) + 1) = .ok ((i : Int) + 1) :=
      checkInt_ok (by unfold INT_MIN; omega) (by unfold INT_MAX; omega)
    obtain ⟨m, hrun1, hm1, hm2, hmin, hfirst⟩ :=
      selectionInner_spec arr n i hn (by omega) (k + 1) (i + 1) i (le_refl i) (by omega)
        (by omega)
        (by
          intro p hp1 hp2
          have : p = i := by omega
          subst this
          exact le_refl _)
        (by intro p hp1 hp2; omega)
    have hi0 : i < arr.length := by omega
    have hm0 : m < arr.length := by omega
    obtain ⟨out, hrun2, hl2, hperm2, hsorted2, hnoop2⟩ :=
      ih (i + 1) (swapL arr i m) (by simpa using hlen) (by omega)
        (by
          intro p q hpq hq
          rw [nth_swapL_other hi0 hm0 (show p ≠ i by omega) (show p ≠ m by omega)]
          by_cases hqi : q = i
          · subst hqi
            rw [nth_swapL_left hi0 hm0]
            exact hpre p m (by omega) hm1 hm2
          · rw [nth_swapL_other hi0 hm0 hqi (show q ≠ m by omega)]
            exact hsorted p q hpq (by omega))
        (by
          intro p q hp hq1 hq
          by_cases hpi : p = i
          · subst hpi
            rw [nth_swapL_left hi0 hm0]
            by_cases hqm : q = m
            · subst hqm
              rw [nth_swapL_right hi0 hm0]
              exact hmin p (le_refl p) (by omega)
            · rw [nth_swapL_other hi0 hm0 (show q ≠ p by omega) hqm]
              exact hmin q (by omega) hq
          · rw [nth_swapL_other hi0 hm0 hpi (show p ≠ m by omega)]
            by_cases hqm : q = m
            · subst hqm
              rw [nth_swapL_right hi0 hm0]
              exact hpre p i (by omega) (le_refl i) (by omega)
            · rw [nth_swapL_other hi0 hm0 (show q ≠ i by omega) hqm]
              exact hpre p q (by omega) (by omega) hq)
    refine ⟨out, ?_, hl2, hperm2.trans (swapL_perm hi0 hm0), hsorted2, ?_⟩
    · intro budget fuel hb hf
      obtain ⟨f, rfl⟩ : ∃ f, fuel = f + 1 := ⟨fuel - 1, by omega⟩
      have h1 := hrun1 budget (by omega)
      have h2 := hrun2 budget f hb (by omega)
      simp only [Nat.cast_add, Nat.cast_one] at h1 h2
      simp [selectionOuter, hc1, hcond, hc2, h1, swapAt_nat hi0 hm0]
      exact h2
    · intro hs
      have hmi : m = i := by
        by_contra hne
        have h1 := hfirst i (le_refl i) (by omega)
        have h2 := hs i m (by omega) hm2
        omega
      subst hmi
      rw [swapL_self] at hnoop2
      exact hnoop2 hs

theorem selectionSort_spec (arr : List Int) (hlen : arr.length < 2147483648) :
    ∃ out : List Int,
      (∀ fuel, arr.length < fuel → selectionSort fuel arr = .ok out) ∧
      List.Sorted (· ≤ ·) out ∧ out.Perm arr ∧ (List.Sorted (· ≤ ·) arr → out = arr) := by
  by_cases h0 : arr.length = 0
  · have : arr = [] := List.length_eq_zero.1 h0
    subst this
    refine ⟨[], ?_, List.sorted_nil, List.Perm.refl _, fun _ => rfl⟩
    intro fuel hf
    obtain ⟨f, rfl⟩ : ∃ f, fuel = f + 1 := ⟨fuel - 1, by simp at hf; omega⟩
    rfl
  · obtain ⟨out, hrun, hl, hperm, hsorted, hnoop⟩ :=
      selectionOuter_spec arr.length hlen (by omega) arr.length (le_refl _) (arr.length - 1) 0
        arr rfl (by omega)
        (by intro p q hpq hq; omega) (by intro p q hp hq1 hq; omega)
    refine ⟨out, ?_, ?_, hperm, ?_⟩
    · intro fuel hf
      have := hrun fuel fuel (by omega) (by omega)
      unfold selectionSort
      rw [sizeToInt_small _ hlen]
      simpa using this
    · rw [sorted_iff_nth, hl]
      exact hsorted
    · intro hs
      exact hnoop ((sorted_iff_nth arr).1 hs)

/-! ## Insertion sort -/

theorem shift_eq_swap (arr : List Int) (h : Nat) (key : Int) (hlt : h + 1 < arr.length) :
    (arr.set (h + 1) (nth arr h)).set h key = swapL (arr.set (h + 1) key) h (h + 1) := by
  have hB0 : h < (arr.set (h + 1) key).length := by simp; omega
  have hB1 : h + 1 < (arr.set (h + 1) key).length := by simpa using hlt
  apply ext_nth (by simp)
  intro k _
  by_cases hk0 : k = h
  · subst hk0
    rw [nth_set_eq (by simp; omega), nth_swapL_left hB0 hB1, nth_set_eq hlt]
  · rw [nth_set_ne (Ne.symm hk0)]
    by_cases hk1 : k = h + 1
    · subst hk1
      rw [nth_set_eq hlt, nth_swapL_right hB0 hB1, nth_set_ne (by omega)]
    · rw [nth_set_ne (Ne.symm hk1), nth_swapL_other hB0 hB1 hk0 hk1, nth_set_ne (Ne.symm hk1)]

theorem insertionInner_spec (A : List Int) (n i : Nat) (key : Int) (hn : n < 2147483648)
    (hi : i < n) (N : Nat) (hnN : n ≤ N) :
    ∀ (h : Nat) (arr : List Int), h ≤ i → arr.length = N →
      (∀ p, p ≤ h → nth arr p = nth A p) →
      (∀ p, h < p → p ≤ i → nth arr p = nth A (p - 1)) →
      (∀ p, i < p → nth arr p = nth A p) →
      (∀ p, h ≤ p → p < i → key < nth A p) →
      (arr.set h key).Perm A →
      ∃ (out : List Int) (h' : Nat),
        (∀ fuel, h < fuel →
          insertionInner key fuel ((h : Int) - 1) arr = .ok (out, (h' : Int) - 1)) ∧
        h' ≤ h ∧ out.length = N ∧
        (∀ p, p ≤ h' → nth out p = nth A p) ∧
        (∀ p, h' < p → p ≤ i → nth out p = nth A (p - 1)) ∧
        (∀ p, i < p → nth out p = nth A p) ∧
        (∀ p, h' ≤ p → p < i → key < nth A p) ∧
        (out.set h' key).Perm A ∧
        (h' = 0 ∨ nth A (h' - 1) ≤ key) ∧
        ((h = 0 ∨ nth A (h - 1) ≤ key) → out = arr ∧ h' = h) := by
  intro h
  induction h with
  | zero =>
    intro arr _ hlen hs1 hs2 hs3 hgt hperm
    refine ⟨arr, 0, ?_, le_refl 0, hlen, hs1, hs2, hs3, hgt, hperm, Or.inl rfl,
      fun _ => ⟨rfl, rfl⟩⟩
    intro fuel hf
    obtain ⟨f, rfl⟩ : ∃ f, fuel = f + 1 := ⟨fuel - 1, by omega⟩
    simp [insertionInner]
  | succ h ih =>
    intro arr hhi hlen hs1 hs2 hs3 hgt hperm
    have hj : ((h + 1 : Nat) : Int) - 1 = (h : Int) := by omega
    have hh0 : h < arr.length := by omega
    have hh1 : h + 1 < arr.length := by omega
    have hcond : (0 : Int) ≤ (h : Int) := by omega
    have ha : nth arr h = nth A h := hs1 h (by omega)
    by_cases hlt : key < nth arr h
    · have hc1 : checkInt ((h : Int) + 1) = .ok ((h : Int) + 1) :=
        checkInt_ok (by unfold INT_MIN; omega) (by unfold INT_MAX; omega)
      have hc2 : checkInt ((h : Int) - 1) = .ok ((h : Int) - 1) :=
        checkInt_ok (by unfold INT_MIN; omega) (by unfold INT_MAX; omega)
      obtain ⟨out, h', hrun, hle, hl, ho1, ho2, ho3, hogt, hoperm, hexit, _⟩ :=
        ih (arr.set (h + 1) (nth arr h)) (by omega) (by simpa using hlen)
          (by
            intro p hp
            rw [nth_set_ne (by omega)]
            exact hs1 p (by omega))
          (by
            intro p hp1 hp2
            by_cases hp : p = h + 1
            · subst hp
              rw [nth_set_eq hh1]
              simpa using ha
            · rw [nth_set_ne (Ne.symm hp)]
              exact hs2 p (by omega) hp2)
          (by
            intro p hp
            rw [nth_set_ne (by omega)]
            exact hs3 p hp)
          (by
            intro p hp1 hp2
            by_cases hp : p = h
            · subst hp
              rw [← ha]
              exact hlt
            · exact hgt p (by omega) hp2)
          (by
            rw [shift_eq_swap arr h key hh1]
            exact (swapL_perm (by simp; omega) (by simpa using hh1)).trans hperm)
      refine ⟨out, h', ?_, by omega, hl, ho1, ho2, ho3, hogt, hoperm, hexit, ?_⟩
      · intro fuel hf
        obtain ⟨f, rfl⟩ : ∃ f, fuel = f + 1 := ⟨fuel - 1, by omega⟩
        have := hrun f (by omega)
        rw [hj]
        simp [insertionInner, readAt_nat hh0, hlt, hc1, hc2, writeAt_succ hh1]
        exact this
      · intro hnoop
        rcases hnoop with h0 | h0
        · omega
        · simp only [Nat.add_sub_cancel] at h0
          rw [← ha] at h0
          omega
    · refine ⟨arr, h + 1, ?_, le_refl _, hlen, hs1, hs2, hs3, hgt, hperm, Or.inr ?_,
        fun _ => ⟨rfl, rfl⟩⟩
      · intro fuel hf
        obtain ⟨f, rfl⟩ : ∃ f, fuel = f + 1 := ⟨fuel - 1, by omega⟩
        rw [hj]
        simp [insertionInner, readAt_nat hh0, hlt]
      · simp only [Nat.add_sub_cancel]
        rw [← ha]
        omega

theorem insertionStep_spec (arr : List Int) (n i : Nat) (hn : n < 2147483648)
    (N : Nat) (hnN : n ≤ N) (hlen : arr.length = N) (hi1 : 1 ≤ i) (hi : i < n) :
    ∃ (out : List Int) (h' : Nat),
      (∀ budget, i < budget → insertionStep budget i arr = .ok out) ∧
      out.length = N ∧ out.Perm arr ∧ h' ≤ i ∧
      (∀ p, p < h' → nth out p = nth arr p) ∧
      nth out h' = nth arr i ∧
      (∀ p, h' < p → p ≤ i → nth out p = nth arr (p - 1)) ∧
      (∀ p, i < p → nth out p = nth arr p) ∧
      (∀ p, h' ≤ p → p < i → nth arr i < nth arr p) ∧
      (h' = 0 ∨ nth arr (h' - 1) ≤ nth arr i) ∧
      (nth arr (i - 1) ≤ nth arr i → out = arr) := by
  obtain ⟨out1, h', hrun, hle, hl, ho1, ho2, ho3, hogt, hoperm, hexit, hnoop⟩ :=
    insertionInner_spec arr n i (nth arr i) hn hi N hnN i arr (le_refl i) hlen
      (fun _ _ => rfl) (by intro p hp1 hp2; omega) (fun _ _ => rfl)
      (by intro p hp1 hp2; omega) (by rw [set_nth_self])
  have hh' : h' < out1.length := by omega
  refine ⟨out1.set h' (nth arr i), h', ?_, by simpa using hl, hoperm, hle, ?_, ?_, ?_, ?_,
    hogt, hexit, ?_⟩
  · intro budget hb
    have h1 := hrun budget hb
    have hc1 : checkInt ((i : Int) - 1) = .ok ((i : Int) - 1) :=
      checkInt_ok (by unfold INT_MIN; omega) (by unfold INT_MAX; omega)
    have hc2 : checkInt (h' : Int) = .ok (h' : Int) :=
      checkInt_ok (by unfold INT_MIN; omega) (by unfold INT_MAX; omega)
    simp [insertionStep, readAt_nat (show i < arr.length by omega), hc1, h1, hc2,
      writeAt_nat hh']
  · intro p hp
    rw [nth_set_ne (by omega)]
    exact ho1 p (by omega)
  · rw [nth_set_eq hh']
  · intro p hp1 hp2
    rw [nth_set_ne (by omega)]
    exact ho2 p hp1 hp2
  · intro p hp
    rw [nth_set_ne (by omega)]
    exact ho3 p hp
  · intro hs
    obtain ⟨e1, e2⟩ := hnoop (Or.inr hs)
    rw [e1, e2, set_nth_self]

theorem insertionOuter_spec (n : Nat) (hn : n < 2147483648) (N : Nat) (hnN : n ≤ N) :
    ∀ (k i : Nat) (arr : List Int), arr.length = N → 1 ≤ i → i + k = n →
      (∀ p q, p < q → q < i → nth arr p ≤ nth arr q) →
      ∃ out : List Int,
        (∀ budget fuel, n ≤ budget → k < fuel →
          insertionOuter budget n fuel i arr = .ok out) ∧
        out.length = N ∧ out.Perm arr ∧
        (∀ p q, p < q → q < n → nth out p ≤ nth out q) ∧
        ((∀ p q, p < q → q < n → nth arr p ≤ nth arr q) → out = arr) := by
  intro k
  induction k with
  | zero =>
    intro i arr hlen hi1 hi hsorted
    refine ⟨arr, ?_, hlen, List.Perm.refl _, ?_, fun _ => rfl⟩
    · intro budget fuel _ hf
      obtain ⟨f, rfl⟩ : ∃ f, fuel = f + 1 := ⟨fuel - 1, by omega⟩
      have hcond : ¬ ((i : Int) < (n : Int)) := by omega
      simp [insertionOuter, hcond]
    · intro p q hpq hq
      exact hsorted p q hpq (by omega)
  | succ k ih =>
    intro i arr hlen hi1 hi hsorted
    have hcond : (i : Int) < (n : Int) := by omega
    have hc : checkInt ((i : Int) + 1) = .ok ((i : Int) + 1) :=
      checkInt_ok (by unfold INT_MIN; omega) (by unfold INT_MAX; omega)
    obtain ⟨mid, h', hrun1, hl1, hperm1, hle, hm1, hm2, hm3, hm4, hgt, hexit, hnoop1⟩ :=
      insertionStep_spec arr n i hn N hnN hlen hi1 (by omega)
    obtain ⟨out, hrun2, hl2, hperm2, hsorted2, hnoop2⟩ :=
      ih (i + 1) mid hl1 (by omega) (by omega)
        (by
          intro p q hpq hq
          rcases Nat.lt_trichotomy q h' with hq' | hq' | hq'
          · rw [hm1 p (by omega), hm1 q hq']
            exact hsorted p q hpq (by omega)
          · subst hq'
            rw [hm1 p hpq, hm2]
            rcases hexit with h0 | h0
            · omega
            · by_cases hp : p = q - 1
              · rw [hp]; exact h0
              · exact le_trans (hsorted p (q - 1) (by omega) (by omega)) h0
          · rw [hm3 q hq' (by omega)]
            rcases Nat.lt_trichotomy p h' with hp' | hp' | hp'
            · rw [hm1 p hp']
              exact hsorted p (q - 1) (by omega) (by omega)
            · subst hp'
              rw [hm2]
              exact le_of_lt (hgt (q - 1) (by omega) (by omega))
            · rw [hm3 p hp' (by omega)]
              exact hsorted (p - 1) (q - 1) (by omega) (by omega))
    refine ⟨out, ?_, hl2, hperm2.trans hperm1, hsorted2, ?_⟩
    · intro budget fuel hb hf
      obtain ⟨f, rfl⟩ : ∃ f, fuel = f + 1 := ⟨fuel - 1, by omega⟩
      have h1 := hrun1 budget (by omega)
      have h2 := hrun2 budget f hb (by omega)
      simp only [Nat.cast_add, Nat.cast_one] at h2
      simp [insertionOuter, hcond, h1, hc]
      exact h2
    · intro hs
      have hm : mid = arr := hnoop1 (by
        by_cases h1 : i - 1 = i
        · omega
        · exact hs (i - 1) i (by omega) (by omega))
      rw [hm] at hnoop2
      exact hnoop2 hs

theorem insertionSort_spec (arr : List Int) (hlen : arr.length < 2147483648) :
    ∃ out : List Int,
      (∀ fuel, arr.length < fuel → insertionSort fuel arr = .ok out) ∧
      List.Sorted (· ≤ ·) out ∧ out.Perm arr ∧ (List.Sorted (· ≤ ·) arr → out = arr) := by
  by_cases h0 : arr.length = 0
  · have : arr = [] := List.length_eq_zero.1 h0
    subst this
    refine ⟨[], ?_, List.sorted_nil, List.Perm.refl _, fun _ => rfl⟩
    intro fuel hf
    obtain ⟨f, rfl⟩ : ∃ f, fuel = f + 1 := ⟨fuel - 1, by simp at hf; omega⟩
    rfl
  · obtain ⟨out, hrun, hl, hperm, hsorted, hnoop⟩ :=
      insertionOuter_spec arr.length hlen arr.length (le_refl _) (arr.length - 1) 1 arr rfl
        (le_refl 1) (by omega)
        (by intro p q hpq hq; omega)
    refine ⟨out, ?_, ?_, hperm, ?_⟩
    · intro fuel hf
      have := hrun fuel fuel (by omega) (by omega)
      unfold insertionSort
      rw [sizeToInt_small _ hlen]
      simpa using this
    · rw [sorted_iff_nth, hl]
      exact hsorted
    · intro hs
      exact hnoop ((sorted_iff_nth arr).1 hs)

/-! ## Correctness of the three sorts -/

theorem sorted_replicate_zero (m : Nat) : List.Sorted (· ≤ ·) (List.replicate m (0 : Int)) := by
  unfold List.Sorted
  rw [List.pairwise_replicate]
  exact Or.inr (le_refl 0)

/-- C3: for every array of length below 2^31 (lengths 0 and 1 included),
`bubbleSort` returns, for every fuel above the length, an array that is
non-decreasing and a permutation of its input. -/
theorem bubbleSort_sorts_and_permutes (arr : List Int) (hlen : arr.length < 2 ^ 31) :
    ∃ (out : List Int) (cmps : Nat),
      (∀ fuel, arr.length < fuel → bubbleSort fuel arr = .ok (out, cmps)) ∧
      List.Sorted (· ≤ ·) out ∧ out.Perm arr := by
  obtain ⟨out, hrun, hs, hp, _⟩ := bubbleSort_spec arr (by simpa using hlen)
  exact ⟨out, _, hrun, hs, hp⟩

/-- Witness for C3 on the array of `demonstrateSorting`, with the sorted array the
demonstration prints. -/
theorem bubbleSort_sorts_and_permutes_witness :
    bubbleSort 8 [64, 34, 25, 12, 22, 11, 90] = .ok ([11, 12, 22, 25, 34, 64, 90], 21) ∧
    bubbleSort 1 [] = .ok ([], 0) ∧ bubbleSort 2 [5] = .ok ([5], 0) ∧
    ∃ (out : List Int) (cmps : Nat),
      (∀ fuel, ([64, 34, 25, 12, 22, 11, 90] : List Int).length < fuel →
        bubbleSort fuel [64, 34, 25, 12, 22, 11, 90] = .ok (out, cmps)) ∧
      List.Sorted (· ≤ ·) out ∧ out.Perm [64, 34, 25, 12, 22, 11, 90] :=
  ⟨by decide, by decide, by decide,
    bubbleSort_sorts_and_permutes [64, 34, 25, 12, 22, 11, 90] (by decide)⟩

/-- C4: for every array of length below 2^31 (lengths 0 and 1 included),
`insertionSort` returns, for every fuel above the length, an array that is
non-decreasing and a permutation of its input; and one pass of its outer loop (the
shifting loop followed by `arr[j+1] = key`) turns any array into a permutation of
itself, so no element is lost or duplicated. -/
theorem insertionSort_sorts_and_permutes :
    (∀ arr : List Int, arr.length < 2 ^ 31 →
      ∃ out : List Int,
        (∀ fuel, arr.length < fuel → insertionSort fuel arr = .ok out) ∧
        List.Sorted (· ≤ ·) out ∧ out.Perm arr) ∧
    (∀ (arr : List Int) (i : Nat), arr.length < 2 ^ 31 → 1 ≤ i → i < arr.length →
      ∃ out : List Int,
        (∀ budget, i < budget → insertionStep budget i arr = .ok out) ∧ out.Perm arr) := by
  constructor
  · intro arr hlen
    obtain ⟨out, hrun, hs, hp, _⟩ := insertionSort_spec arr (by simpa using hlen)
    exact ⟨out, hrun, hs, hp⟩
  · intro arr i hlen hi1 hi
    obtain ⟨out, _, hrun, _, hp, _⟩ :=
      insertionStep_spec arr arr.length i (by simpa using hlen) arr.length (le_refl _) rfl
        hi1 hi
    exact ⟨out, hrun, hp⟩

/-- Witness for C4 on the array of `demonstrateSorting`. -/
theorem insertionSort_sorts_and_permutes_witness :
    insertionSort 8 [64, 34, 25, 12, 22, 11, 90] = .ok [11, 12, 22, 25, 34, 64, 90] ∧
    insertionSort 1 [] = .ok [] ∧ insertionSort 2 [5] = .ok [5] ∧
    insertionStep 8 3 [25, 34, 64, 12, 22, 11, 90] = .ok [12, 25, 34, 64, 22, 11, 90] ∧
    (∃ out : List Int,
      (∀ fuel, ([64, 34, 25, 12, 22, 11, 90] : List Int).length < fuel →
        insertionSort fuel [64, 34, 25, 12, 22, 11, 90] = .ok out) ∧
      List.Sorted (· ≤ ·) out ∧ out.Perm [64, 34, 25, 12, 22, 11, 90]) ∧
    (∃ out : List Int,
      (∀ budget, 3 < budget → insertionStep budget ((3 : Nat) : Int)
        [25, 34, 64, 12, 22, 11, 90] = .ok out) ∧
      out.Perm [25, 34, 64, 12, 22, 11, 90]) :=
  ⟨by decide, by decide, by decide, by decide,
    insertionSort_sorts_and_permutes.1 [64, 34, 25, 12, 22, 11, 90] (by decide),
    insertionSort_sorts_and_permutes.2 [25, 34, 64, 12, 22, 11, 90] 3 (by decide) (by decide)
      (by decide)⟩

/-- C5: for every array of length below 2^31 (lengths 0 and 1 included),
`selectionSort` returns, for every fuel above the length, an array that is
non-decreasing and a permutation of its input. -/
theorem selectionSort_sorts_and_permutes (arr : List Int) (hlen : arr.length < 2 ^ 31) :
    ∃ out : List Int,
      (∀ fuel, arr.length < fuel → selectionSort fuel arr = .ok out) ∧
      List.Sorted (· ≤ ·) out ∧ out.Perm arr := by
  obtain ⟨out, hrun, hs, hp, _⟩ := selectionSort_spec arr (by simpa using hlen)
  exact ⟨out, hrun, hs, hp⟩

/-- Witness for C5 on the array of `demonstrateSorting`. -/
theorem selectionSort_sorts_and_permutes_witness :
    selectionSort 8 [64, 34, 25, 12, 22, 11, 90] = .ok [11, 12, 22, 25, 34, 64, 90] ∧
    selectionSort 1 [] = .ok [] ∧ selectionSort 2 [5] = .ok [5] ∧
    ∃ out : List Int,
      (∀ fuel, ([64, 34, 25, 12, 22, 11, 90] : List Int).length < fuel →
        selectionSort fuel [64, 34, 25, 12, 22, 11, 90] = .ok out) ∧
      List.Sorted (· ≤ ·) out ∧ out.Perm [64, 34, 25, 12, 22, 11, 90] :=
  ⟨by decide, by decide, by decide,
    selectionSort_sorts_and_permutes [64, 34, 25, 12, 22, 11, 90] (by decide)⟩

theorem sizeToInt_two_pow_31 : sizeToInt 2147483648 = -2147483648 := by
  unfold sizeToInt
  norm_num

theorem bubbleSort_overflow (arr : List Int) (h : arr.length = 2147483648) (f : Nat) :
    bubbleSort (f + 1) arr = .error .overflow := by
  unfold bubbleSort
  rw [h, sizeToInt_two_pow_31]
  simp [bubbleOuter, checkInt, INT_MIN, INT_MAX]

theorem selectionSort_overflow (arr : List Int) (h : arr.length = 2147483648) (f : Nat) :
    selectionSort (f + 1) arr = .error .overflow := by
  unfold selectionSort
  rw [h, sizeToInt_two_pow_31]
  simp [selectionOuter, checkInt, INT_MIN, INT_MAX]

theorem bubbleSort_no_fuel (arr : List Int) : bubbleSort 0 arr = .error .outOfFuel := rfl

theorem selectionSort_no_fuel (arr : List Int) : selectionSort 0 arr = .error .outOfFuel := rfl

/-- C6 as stated (every non-decreasing array, of any length) fails: on the sorted
array of 2^31 zeros, `int n = arr.size()` is `INT_MIN` and `n-1` overflows, so
`bubbleSort` and `selectionSort` leave defined behaviour instead of returning the
array unchanged, whatever the fuel. -/
theorem sorted_noop_fails_beyond_int_range :
    List.Sorted (· ≤ ·) (List.replicate 2147483648 (0 : Int)) ∧
    bubbleSort (2147483648 + 1) (List.replicate 2147483648 0) = .error .overflow ∧
    selectionSort (2147483648 + 1) (List.replicate 2147483648 0) = .error .overflow ∧
    (¬ ∃ (fuel : Nat) (r : List Int × Nat),
        bubbleSort fuel (List.replicate 2147483648 0) = .ok r) ∧
    (¬ ∃ (fuel : Nat) (r : List Int),
        selectionSort fuel (List.replicate 2147483648 0) = .ok r) := by
  refine ⟨sorted_replicate_zero _,
    bubbleSort_overflow _ (List.length_replicate _ _) 2147483648,
    selectionSort_overflow _ (List.length_replicate _ _) 2147483648, ?_, ?_⟩
  · rintro ⟨fuel, r, hr⟩
    cases fuel with
    | zero => rw [bubbleSort_no_fuel] at hr; cases hr
    | succ f => rw [bubbleSort_overflow _ (List.length_replicate _ _) f] at hr; cases hr
  · rintro ⟨fuel, r, hr⟩
    cases fuel with
    | zero => rw [selectionSort_no_fuel] at hr; cases hr
    | succ f => rw [selectionSort_overflow _ (List.length_replicate _ _) f] at hr; cases hr

theorem sizeToInt_bounds (s : Nat) :
    -2147483648 ≤ sizeToInt s ∧ sizeToInt s ≤ 2147483647 ∧ sizeToInt s ≤ (s : Int) := by
  unfold sizeToInt
  omega

theorem sizeToInt_ne_min (s : Nat) (h : s % 4294967296 ≠ 2147483648) :
    sizeToInt s ≠ -2147483648 := by
  unfold sizeToInt
  omega

theorem bubbleOuter_nonpos (arr : List Int) (x : Int) (f : Nat) (h1 : -2147483648 < x)
    (h2 : x ≤ 0) : bubbleOuter (f + 1) x (f + 1) 0 (arr, 0) = .ok (arr, 0) := by
  have hc : checkInt (x - 1) = .ok (x - 1) :=
    checkInt_ok (by unfold INT_MIN; omega) (by unfold INT_MAX; omega)
  have hcond : ¬ ((0 : Int) < x - 1) := by omega
  simp [bubbleOuter, hc, hcond]

theorem selectionOuter_nonpos (arr : List Int) (x : Int) (f : Nat) (h1 : -2147483648 < x)
    (h2 : x ≤ 0) : selectionOuter (f + 1) x (f + 1) 0 arr = .ok arr := by
  have hc : checkInt (x - 1) = .ok (x - 1) :=
    checkInt_ok (by unfold INT_MIN; omega) (by unfold INT_MAX; omega)
  have hcond : ¬ ((0 : Int) < x - 1) := by omega
  simp [selectionOuter, hc, hcond]

theorem insertionOuter_nonpos (arr : List Int) (x : Int) (f : Nat) (h2 : x ≤ 0) :
    insertionOuter (f + 1) x (f + 1) 1 arr = .ok arr := by
  have hcond : ¬ ((1 : Int) < x) := by omega
  simp [insertionOuter, hcond]

theorem bubbleSort_any (arr : List Int) (h : arr.length % 4294967296 ≠ 2147483648) :
    ∃ out : List Int,
      (∀ fuel, arr.length < fuel →
        bubbleSort fuel arr = .ok (out, passesCost (sizeToInt arr.length).toNat)) ∧
      out.length = arr.length ∧
      (∀ p q : Nat, p < q → (q : Int) < sizeToInt arr.length → nth out p ≤ nth out q) ∧
      ((∀ p q : Nat, p < q → (q : Int) < sizeToInt arr.length → nth arr p ≤ nth arr q) →
        out = arr) := by
  obtain ⟨hlo, hhi, hle⟩ := sizeToInt_bounds arr.length
  have hmin := sizeToInt_ne_min _ h
  by_cases hpos : 0 < sizeToInt arr.length
  · obtain ⟨n, hn⟩ : ∃ n : Nat, (n : Int) = sizeToInt arr.length :=
      ⟨(sizeToInt arr.length).toNat, by omega⟩
    obtain ⟨out, hrun, hl, _, hsorted, hnoop⟩ :=
      bubbleOuter_spec n (by omega) (by omega) arr.length (by omega) (n - 1) 0 arr 0 rfl
        (by omega) (by intro p q hp hpq hq; omega) (by intro p q hp hq1 hq; omega)
    refine ⟨out, ?_, hl, ?_, ?_⟩
    · intro fuel hf
      have := hrun fuel fuel (by omega) (by omega)
      unfold bubbleSort
      rw [← hn]
      simp only [Nat.cast_zero, Nat.zero_add, Int.toNat_ofNat] at this ⊢
      rw [this]
      have : n - 1 + 1 = n := by omega
      rw [this]
    · intro p q hpq hq
      exact hsorted p q hpq (by omega)
    · intro hs
      apply hnoop
      intro p hp
      exact hs p (p + 1) (by omega) (by omega)
  · refine ⟨arr, ?_, rfl, ?_, fun _ => rfl⟩
    · intro fuel hf
      obtain ⟨f, rfl⟩ : ∃ f, fuel = f + 1 := ⟨fuel - 1, by omega⟩
      have ht : (sizeToInt arr.length).toNat = 0 := by omega
      have hp : passesCost 0 = 0 := rfl
      rw [ht, hp]
      exact bubbleOuter_nonpos arr _ f (by omega) (by omega)
    · intro p q hpq hq
      omega

theorem selectionSort_any (arr : List Int) (h : arr.length % 4294967296 ≠ 2147483648) :
    ∃ out : List Int,
      (∀ fuel, arr.length < fuel → selectionSort fuel arr = .ok out) ∧
      out.length = arr.length ∧
      (∀ p q : Nat, p < q → (q : Int) < sizeToInt arr.length → nth out p ≤ nth out q) ∧
      ((∀ p q : Nat, p < q → (q : Int) < sizeToInt arr.length → nth arr p ≤ nth arr q) →
        out = arr) := by
  obtain ⟨hlo, hhi, hle⟩ := sizeToInt_bounds arr.length
  have hmin := sizeToInt_ne_min _ h
  by_cases hpos : 0 < sizeToInt arr.length
  · obtain ⟨n, hn⟩ : ∃ n : Nat, (n : Int) = sizeToInt arr.length :=
      ⟨(sizeToInt arr.length).toNat, by omega⟩
    obtain ⟨out, hrun, hl, _, hsorted, hnoop⟩ :=
      selectionOuter_spec n (by omega) (by omega) arr.length (by omega) (n - 1) 0 arr rfl
        (by omega) (by intro p q hpq hq; omega) (by intro p q hp hq1 hq; omega)
    refine ⟨out, ?_, hl, ?_, ?_⟩
    · intro fuel hf
      have := hrun fuel fuel (by omega) (by omega)
      unfold selectionSort
      rw [← hn]
      simpa using this
    · intro p q hpq hq
      exact hsorted p q hpq (by omega)
    · intro hs
      apply hnoop
      intro p q hpq hq
      exact hs p q hpq (by omega)
  · refine ⟨arr, ?_, rfl, ?_, fun _ => rfl⟩
    · intro fuel hf
      obtain ⟨f, rfl⟩ : ∃ f, fuel = f + 1 := ⟨fuel - 1, by omega⟩
      exact selectionOuter_nonpos arr _ f (by omega) (by omega)
    · intro p q hpq hq
      omega

theorem insertionSort_any (arr : List Int) :
    ∃ out : List Int,
      (∀ fuel, arr.length < fuel → insertionSort fuel arr = .ok out) ∧
      out.length = arr.length ∧
      (∀ p q : Nat, p < q → (q : Int) < sizeToInt arr.length → nth out p ≤ nth out q) ∧
      ((∀ p q : Nat, p < q → (q : Int) < sizeToInt arr.length → nth arr p ≤ nth arr q) →
        out = arr) := by
  obtain ⟨hlo, hhi, hle⟩ := sizeToInt_bounds arr.length
  by_cases hpos : 0 < sizeToInt arr.length
  · obtain ⟨n, hn⟩ : ∃ n : Nat, (n : Int) = sizeToInt arr.length :=
      ⟨(sizeToInt arr.length).toNat, by omega⟩
    obtain ⟨out, hrun, hl, _, hsorted, hnoop⟩ :=
      insertionOuter_spec n (by omega) arr.length (by omega) (n - 1) 1 arr rfl (le_refl 1)
        (by omega) (by intro p q hpq hq; omega)
    refine ⟨out, ?_, hl, ?_, ?_⟩
    · intro fuel hf
      have := hrun fuel fuel (by omega) (by omega)
      unfold insertionSort
      rw [← hn]
      simpa using this
    · intro p q hpq hq
      exact hsorted p q hpq (by omega)
    · intro hs
      apply hnoop
      intro p q hpq hq
      exact hs p q hpq (by omega)
  · refine ⟨arr, ?_, rfl, ?_, fun _ => rfl⟩
    · intro fuel hf
      obtain ⟨f, rfl⟩ : ∃ f, fuel = f + 1 := ⟨fuel - 1, by omega⟩
      exact insertionOuter_nonpos arr _ f (by omega)
    · intro p q hpq hq
      omega

theorem sorted_prefix_of_sorted (arr : List Int) (hs : List.Sorted (· ≤ ·) arr) :
    ∀ p q : Nat, p < q → (q : Int) < sizeToInt arr.length → nth arr p ≤ nth arr q := by
  intro p q hpq hq
  have := (sizeToInt_bounds arr.length).2.2
  exact (sorted_iff_nth arr).1 hs p q hpq (by omega)

/-- C6 (amended): `insertionSort` returns every non-decreasing array, of any length
(the empty array included), element for element unchanged; `bubbleSort` and
`selectionSort` do so for every non-decreasing array whose length is not congruent
to 2^31 modulo 2^32, which covers every length below 2^31.  Hence `insertionSort`
is idempotent on every array, and `bubbleSort` and `selectionSort` are idempotent
on every array whose length is not congruent to 2^31 modulo 2^32: sorting the
output once more returns that output again. -/
theorem sorted_input_is_left_unchanged :
    (∀ arr : List Int, List.Sorted (· ≤ ·) arr →
      ∀ fuel, arr.length < fuel → insertionSort fuel arr = .ok arr) ∧
    (∀ arr : List Int, arr.length % 4294967296 ≠ 2147483648 → List.Sorted (· ≤ ·) arr →
      ∃ c : Nat, ∀ fuel, arr.length < fuel →
        bubbleSort fuel arr = .ok (arr, c) ∧ selectionSort fuel arr = .ok arr) ∧
    (∀ arr : List Int, ∃ ins : List Int, ∀ fuel, arr.length < fuel →
      insertionSort fuel arr = .ok ins ∧ insertionSort fuel ins = .ok ins) ∧
    (∀ arr : List Int, arr.length % 4294967296 ≠ 2147483648 →
      ∃ (b sel : List Int) (c : Nat), ∀ fuel, arr.length < fuel →
        (bubbleSort fuel arr = .ok (b, c) ∧ bubbleSort fuel b = .ok (b, c)) ∧
        (selectionSort fuel arr = .ok sel ∧ selectionSort fuel sel = .ok sel)) := by
  refine ⟨?_, ?_, ?_, ?_⟩
  · intro arr hs fuel hf
    obtain ⟨out, hrun, _, _, hnoop⟩ := insertionSort_any arr
    have e := hnoop (sorted_prefix_of_sorted arr hs)
    subst e
    exact hrun fuel hf
  · intro arr hlen hs
    obtain ⟨b, hb, _, _, hbn⟩ := bubbleSort_any arr hlen
    obtain ⟨sel, hsel, _, _, hsn⟩ := selectionSort_any arr hlen
    have e1 := hbn (sorted_prefix_of_sorted arr hs)
    have e2 := hsn (sorted_prefix_of_sorted arr hs)
    subst e1 e2
    exact ⟨_, fun fuel hf => ⟨hb fuel hf, hsel fuel hf⟩⟩
  · intro arr
    obtain ⟨ins, hrun, hl, hsorted, _⟩ := insertionSort_any arr
    obtain ⟨ins2, hrun2, _, _, hnoop2⟩ := insertionSort_any ins
    rw [hl] at hrun2 hnoop2
    have e := hnoop2 hsorted
    subst e
    exact ⟨ins2, fun fuel hf => ⟨hrun fuel hf, hrun2 fuel hf⟩⟩
  · intro arr hlen
    obtain ⟨b, hb, hbl, hbs, _⟩ := bubbleSort_any arr hlen
    obtain ⟨sel, hsel, hsl, hss, _⟩ := selectionSort_any arr hlen
    obtain ⟨b2, hb2, _, _, hbn2⟩ := bubbleSort_any b (by rw [hbl]; exact hlen)
    obtain ⟨sel2, hsel2, _, _, hsn2⟩ := selectionSort_any sel (by rw [hsl]; exact hlen)
    rw [hbl] at hb2 hbn2
    rw [hsl] at hsel2 hsn2
    have e1 := hbn2 hbs
    have e2 := hsn2 hss
    subst e1 e2
    exact ⟨b2, sel2, _, fun fuel hf =>
      ⟨⟨hb fuel hf, hb2 fuel hf⟩, ⟨hsel fuel hf, hsel2 fuel hf⟩⟩⟩

/-- Witness for C6 on the sorted output of `demonstrateSorting`, on the array of
`demonstrateSorting` and on the empty array. -/
theorem sorted_input_is_left_unchanged_witness :
    (bubbleSort 1 [] = .ok ([], 0) ∧ insertionSort 1 [] = .ok [] ∧
      selectionSort 1 [] = .ok []) ∧
    (∀ fuel, ([11, 12, 22, 25, 34, 64, 90] : List Int).length < fuel →
      insertionSort fuel [11, 12, 22, 25, 34, 64, 90] = .ok [11, 12, 22, 25, 34, 64, 90]) ∧
    (∃ c : Nat, ∀ fuel, ([11, 12, 22, 25, 34, 64, 90] : List Int).length < fuel →
      bubbleSort fuel [11, 12, 22, 25, 34, 64, 90] = .ok ([11, 12, 22, 25, 34, 64, 90], c) ∧
      selectionSort fuel [11, 12, 22, 25, 34, 64, 90] = .ok [11, 12, 22, 25, 34, 64, 90]) ∧
    (∃ (b sel : List Int) (c : Nat),
      ∀ fuel, ([64, 34, 25, 12, 22, 11, 90] : List Int).length < fuel →
        (bubbleSort fuel [64, 34, 25, 12, 22, 11, 90] = .ok (b, c) ∧
          bubbleSort fuel b = .ok (b, c)) ∧
        (selectionSort fuel [64, 34, 25, 12, 22, 11, 90] = .ok sel ∧
          selectionSort fuel sel = .ok sel)) :=
  ⟨⟨by decide, by decide, by decide⟩,
    sorted_input_is_left_unchanged.1 [11, 12, 22, 25, 34, 64, 90] (by decide),
    sorted_input_is_left_unchanged.2.1 [11, 12, 22, 25, 34, 64, 90] (by decide) (by decide),
    sorted_input_is_left_unchanged.2.2.2 [64, 34, 25, 12, 22, 11, 90] (by decide)⟩

/-- C9: `bubbleSort` has no early exit: on every array of length `n` below 2^31,
sorted or not, it executes the comparison `arr[j] > arr[j+1]` exactly `n*(n-1)/2`
times; so for every constant `c` with `2*c+2 < 2^31` there is an already-sorted
array of length `n = 2*c+2` on which it performs more than `c*n` comparisons, and
the sorted array `[1,2,3,4]` costs 6 comparisons. -/
theorem bubbleSort_best_case_is_quadratic :
    (∀ arr : List Int, arr.length < 2 ^ 31 →
      ∃ out : List Int, ∀ fuel, arr.length < fuel →
        bubbleSort fuel arr = .ok (out, arr.length * (arr.length - 1) / 2)) ∧
    (∀ c : Nat, 2 * c + 2 < 2 ^ 31 →
      ∃ (arr out : List Int) (cmps : Nat),
        List.Sorted (· ≤ ·) arr ∧ arr.length = 2 * c + 2 ∧
        (∀ fuel, arr.length < fuel → bubbleSort fuel arr = .ok (out, cmps)) ∧
        c * arr.length < cmps) ∧
    bubbleSort 5 [1, 2, 3, 4] = .ok ([1, 2, 3, 4], 6) ∧
    bubbleSort 5 [4, 3, 2, 1] = .ok ([1, 2, 3, 4], 6) := by
  refine ⟨?_, ?_, by decide, by decide⟩
  · intro arr hlen
    obtain ⟨out, hrun, _⟩ := bubbleSort_spec arr (by simpa using hlen)
    exact ⟨out, hrun⟩
  · intro c hc
    have hl : (List.replicate (2 * c + 2) (0 : Int)).length = 2 * c + 2 := by simp
    obtain ⟨out, hrun, _⟩ :=
      bubbleSort_spec (List.replicate (2 * c + 2) 0) (by rw [hl]; simpa using hc)
    refine ⟨_, out, _, sorted_replicate_zero _, hl, hrun, ?_⟩
    rw [hl]
    have h1 : (2 * c + 2) * (2 * c + 2 - 1) = (c + 1) * (2 * c + 1) * 2 := by
      have : 2 * c + 2 - 1 = 2 * c + 1 := by omega
      rw [this]; ring
    rw [h1, Nat.mul_div_cancel _ (by norm_num : 0 < 2)]
    nlinarith

/-- Witness for C9: the comparison count on the sorted array `[1,2,3,4]` and the
sorted array exceeding the linear bound with constant 1. -/
theorem bubbleSort_best_case_is_quadratic_witness :
    (∃ out : List Int, ∀ fuel, ([1, 2, 3, 4] : List Int).length < fuel →
      bubbleSort fuel [1, 2, 3, 4] =
        .ok (out, ([1, 2, 3, 4] : List Int).length * (([1, 2, 3, 4] : List Int).length - 1) / 2)) ∧
    (∃ (arr out : List Int) (cmps : Nat),
        List.Sorted (· ≤ ·) arr ∧ arr.length = 2 * 1 + 2 ∧
        (∀ fuel, arr.length < fuel → bubbleSort fuel arr = .ok (out, cmps)) ∧
        1 * arr.length < cmps) :=
  ⟨bubbleSort_best_case_is_quadratic.1 [1, 2, 3, 4] (by decide),
    bubbleSort_best_case_is_quadratic.2.1 1 (by decide)⟩

/-! ## Linked list -/

@[simp]
theorem cellAt_cons_zero (x : Option Node) (l : List (Option Node)) :
    cellAt (x :: l) 0 = x := rfl

@[simp]
theorem cellAt_cons_succ (x : Option Node) (l : List (Option Node)) (a : Nat) :
    cellAt (x :: l) (a + 1) = cellAt l a := rfl

theorem cellAt_append_add (pre l : List (Option Node)) (i : Nat) :
    cellAt (pre ++ l) (pre.length + i) = cellAt l i := by
  unfold cellAt
  rw [List.getD_eq_getElem?_getD, List.getElem?_append_right (Nat.le_add_right _ _),
    Nat.add_sub_cancel_left, ← List.getD_eq_getElem?_getD]

theorem cellAt_append_length (pre l : List (Option Node)) :
    cellAt (pre ++ l) pre.length = cellAt l 0 :=
  cellAt_append_add pre l 0

theorem set_append_add {α : Type} (pre l : List α) (i : Nat) (y : α) :
    (pre ++ l).set (pre.length + i) y = pre ++ l.set i y := by
  rw [List.set_append_right _ _ (Nat.le_add_right _ _), Nat.add_sub_cancel_left]

theorem set_append_length {α : Type} (pre l : List α) (y : α) :
    (pre ++ l).set pre.length y = pre ++ l.set 0 y :=
  set_append_add pre l 0 y

theorem appendNodes_spec : ∀ (vs : List Int) (pre : List (Option Node)) (v : Int) (al fr : Nat),
    appendNodes vs ⟨pre ++ [some ⟨v, none⟩], al, fr⟩ pre.length =
      .ok ⟨pre ++ chainCells pre.length (v :: vs), al + vs.length, fr⟩
  | [], pre, v, al, fr => by
    simp [appendNodes, chainCells]
  | w :: r, pre, v, al, fr => by
    have ih := appendNodes_spec r (pre ++ [some ⟨v, some (pre.length + 1)⟩]) w (al + 1) fr
    simp only [List.length_append, List.length_singleton] at ih
    have e1 : (pre ++ [some (⟨v, none⟩ : Node)] ++ [some ⟨w, none⟩]) =
        pre ++ [some ⟨v, none⟩, some ⟨w, none⟩] := by simp
    have e2 : pre ++ [some (⟨v, some (pre.length + 1)⟩ : Node), some ⟨w, none⟩] =
        pre ++ [some ⟨v, some (pre.length + 1)⟩] ++ [some ⟨w, none⟩] := by simp
    simp only [appendNodes, newNode, setNext, e1, cellAt_append_length, cellAt_cons_zero,
      set_append_length, List.set_cons_zero, ok_bind, List.length_append,
      List.length_singleton]
    rw [e2, ih]
    simp [chainCells, Nat.add_assoc, Nat.add_comm 1]

theorem construct_spec (h : Heap) (v1 : Int) (vs : List Int) :
    construct h v1 vs =
      .ok (⟨h.cells ++ chainCells h.cells.length (v1 :: vs), h.allocs + 1 + vs.length, h.frees⟩,
        some h.cells.length) := by
  simp [construct, newNode, appendNodes_spec]

theorem traverse_chain : ∀ (vals : List Int), vals ≠ [] →
    ∀ (pre : List (Option Node)) (L : Nat), L = pre.length →
    ∀ (al fr : Nat) (out : List Int) (fuel : Nat), vals.length < fuel →
      traverse fuel (some L) (out, ⟨pre ++ chainCells L vals, al, fr⟩) =
        .ok (out ++ vals, ⟨pre ++ chainCells L vals, al, fr⟩)
  | [], hne, _, _, _, _, _, _, _, _ => absurd rfl hne
  | [v], _, pre, L, hL, al, fr, out, fuel, hf => by
    subst hL
    obtain ⟨f, rfl⟩ : ∃ f, fuel = f + 2 := ⟨fuel - 2, by simp at hf; omega⟩
    simp [traverse, deref, chainCells, cellAt_append_length]
  | v :: w :: r, _, pre, L, hL, al, fr, out, fuel, hf => by
    subst hL
    obtain ⟨f, rfl⟩ : ∃ f, fuel = f + 1 := ⟨fuel - 1, by simp at hf; omega⟩
    have ih := traverse_chain (w :: r) (by simp)
      (pre ++ [some ⟨v, some (pre.length + 1)⟩]) (pre.length + 1) (by simp) al fr
      (out ++ [v]) f (by simp at hf ⊢; omega)
    have e : pre ++ [some (⟨v, some (pre.length + 1)⟩ : Node)] ++
        chainCells (pre.length + 1) (w :: r) = pre ++ chainCells pre.length (v :: w :: r) := by
      simp [chainCells]
    rw [e] at ih
    have hd : cellAt (pre ++ chainCells pre.length (v :: w :: r)) pre.length =
        some ⟨v, some (pre.length + 1)⟩ := by
      rw [cellAt_append_length]
      rfl
    simp only [traverse, deref, hd, ok_bind]
    rw [ih]
    simp

theorem demoConstruct_spec (h : Heap) :
    demoConstruct h =
      .ok (⟨h.cells ++ chainCells h.cells.length [1, 2, 3], h.allocs + 3, h.frees⟩,
        some h.cells.length) := by
  simp [demoConstruct, newNode, setNext, deref, chainCells, cellAt_append_length,
    cellAt_append_add, set_append_length, set_append_add]

theorem demoRelease_chain (h : Heap) :
    demoRelease ⟨h.cells ++ chainCells h.cells.length [1, 2, 3], h.allocs + 3, h.frees⟩
        (some h.cells.length) =
      .ok ⟨h.cells ++ [none, none, none], h.allocs + 3, h.frees + 3⟩ := by
  simp [demoRelease, deleteNode, deref, chainCells, cellAt_append_length,
    cellAt_append_add, set_append_length, set_append_add, Nat.add_assoc]

theorem demonstrateLinkedList_spec (h : Heap) (k : Nat) :
    demonstrateLinkedList (k + 4) h =
      .ok ([1, 2, 3], ⟨h.cells ++ [none, none, none], h.allocs + 3, h.frees + 3⟩) := by
  have ht := traverse_chain [1, 2, 3] (by simp) h.cells h.cells.length rfl (h.allocs + 3)
    h.frees [] (k + 4) (by simp)
  simp only [demonstrateLinkedList, demoConstruct_spec, ok_bind, ht, demoRelease_chain]
  rfl

/-- C7: for every value `v1` and every list of further values `vs` (so for every
chain length `n ≥ 1`), building the chain node by node and then following `next`
from the head until `nullptr` prints exactly `v1 :: vs`, in order, and stops; the
traversal returns the heap it was given, so a second traversal from the same head
prints the same sequence.  The construction phase of `demonstrateLinkedList` is the
instance for the values 1, 2, 3, and its traversal prints `[1, 2, 3]`. -/
theorem traverse_construct_yields_values :
    (∀ (h : Heap) (v1 : Int) (vs : List Int) (k : Nat),
      ∃ (h' : Heap) (head : Option Nat),
        construct h v1 vs = .ok (h', head) ∧
        traverse (vs.length + 2 + k) head ([], h') = .ok (v1 :: vs, h') ∧
        (traverse (vs.length + 2 + k) head ([], h') >>= fun r =>
          traverse (vs.length + 2 + k) head ([], r.2)) = .ok (v1 :: vs, h')) ∧
    (∀ h : Heap, demoConstruct h = construct h 1 [2, 3]) ∧
    (∀ (h : Heap) (k : Nat),
      (demoConstruct h >>= fun r => traverse (k + 4) r.2 ([], r.1) >>= fun t => pure t.1) =
        .ok [1, 2, 3]) := by
  refine ⟨?_, ?_, ?_⟩
  · intro h v1 vs k
    have ht := traverse_chain (v1 :: vs) (by simp) h.cells h.cells.length rfl
      (h.allocs + 1 + vs.length) h.frees [] (vs.length + 2 + k) (by simp; omega)
    refine ⟨_, _, construct_spec h v1 vs, ?_, ?_⟩
    · simpa using ht
    · rw [ht]
      simpa using ht
  · intro h
    rw [demoConstruct_spec, construct_spec]
    simp [Nat.add_assoc]
  · intro h k
    have ht := traverse_chain [1, 2, 3] (by simp) h.cells h.cells.length rfl (h.allocs + 3)
      h.frees [] (k + 4) (by simp)
    rw [demoConstruct_spec]
    simp only [ok_bind, ht]
    rfl

/-- C8: `demonstrateLinkedList` neither leaks nor double-frees: from any heap it
runs without a fault (no access to or delete of a deleted node), prints `[1, 2, 3]`
and returns a heap in which the three cells it allocated are all released, with 3
more allocations and 3 more releases than at entry; started on the empty heap, the
three nodes are live after construction and the live set is empty after the release
`head->next->next`, `head->next`, `head`.  Releasing `head` first instead makes the
next access a use after free. -/
theorem demonstrateLinkedList_releases_every_node_once :
    (∀ (h : Heap) (k : Nat),
      demonstrateLinkedList (k + 4) h =
        .ok ([1, 2, 3], ⟨h.cells ++ [none, none, none], h.allocs + 3, h.frees + 3⟩)) ∧
    (∃ (h1 h2 : Heap) (head : Option Nat),
      demoConstruct emptyHeap = .ok (h1, head) ∧
      liveNodes h1 = [0, 1, 2] ∧ h1.allocs = 3 ∧ h1.frees = 0 ∧
      demoRelease h1 head = .ok h2 ∧
      liveNodes h2 = [] ∧ h2.allocs = 3 ∧ h2.frees = 3 ∧
      (deleteNode h1 head >>= fun h => demoRelease h head) = .error .useAfterFree ∧
      (demoRelease h1 head >>= fun h => deleteNode h head) = .error .doubleFree) := by
  refine ⟨demonstrateLinkedList_spec, ?_⟩
  exact ⟨⟨[some ⟨1, some 1⟩, some ⟨2, some 2⟩, some ⟨3, none⟩], 3, 0⟩,
    ⟨[none, none, none], 3, 3⟩, some 0,
    by decide, by decide, rfl, rfl, by decide, by decide, rfl, rfl, by decide, by decide⟩

end DsaIntro
